import Mathlib

/-!
Verification of the ingress-merge controller (tsuru/ingress-merge).

This file shallowly embeds the Go source of the repository:
  * `ingress_bucket.go` : the bucket planner (`GenerateIngressBuckets`,
    `ingressSlots`),
  * `controller.go` : the namespace reconciler (`reconcileNamespace`,
    `reconcileConfigMap`, `reconcileIngressBucket`, `hasIngressChanged`,
    `getIngressClass`, `mergeWildcardDomains`, `wildcardTLSEntry`),
and proves or refutes the frozen claims about it.

Modelling conventions:
  * Go `map[string]string` is modelled as `Option (List (String × String))`
    (`none` is the nil map, which `reflect.DeepEqual` distinguishes from an
    empty map); lookup returns the zero value `""` for absent keys, as in Go.
  * Go map iteration order is unspecified; the model iterates maps in key
    insertion order.  In particular it is not sorted, matching the fact that
    the source never sorts the iteration results.
  * Go slices are modelled as `List`, conflating nil and empty slices.
  * Go `int` is modelled as `Int` where subtraction can go negative
    (`FreeSlots`), and as `Nat` where the source only ever holds
    non-negative counts (`ingressSlots`, lengths).
  * The apiserver is a single-namespace store of ingresses and config maps;
    the random 7-character name suffix drawn by the create path is supplied
    explicitly as a list of suffixes consumed in order.
  * YAML decoding of config-map data is modelled by a small line-based
    decoder for `key: value` mappings; decode failure yields the nil map,
    exactly as the source substitutes `nil` on `yaml.Unmarshal` error.
-/

namespace IngressMerge

/-! ## Go string maps -/

/-- A Go `map[string]string`: `none` is the nil map. -/
abbrev Gmap := Option (List (String × String))

/-- Association-list lookup (first binding wins, as for a map with unique keys). -/
def alookup (l : List (String × String)) (k : String) : Option String :=
  (l.find? (fun kv => kv.1 = k)).map (fun kv => kv.2)

/-- Go map read `m[k]`: zero value `""` when the key is absent or the map is nil. -/
def gmGet (m : Gmap) (k : String) : String :=
  match m with
  | none => ""
  | some l => (alookup l k).getD ""

/-- Go comma-ok read: does the key exist in the map. -/
def gmHas (m : Gmap) (k : String) : Bool :=
  match m with
  | none => false
  | some l => l.any (fun kv => kv.1 = k)

/-- Keys of the map, in insertion order. -/
def gmKeys (m : Gmap) : List String :=
  match m with
  | none => []
  | some l => l.map (fun kv => kv.1)

/-- Replace-or-append write `m[k] = v` (the source only writes to non-nil maps;
a write to the nil map materialises it, which is unreachable in the model). -/
def aupsert (l : List (String × String)) (k v : String) : List (String × String) :=
  match l with
  | [] => [(k, v)]
  | kv :: rest => if kv.1 = k then (k, v) :: rest else kv :: aupsert rest k v

/-- Go map write `m[k] = v`. -/
def gmSet (m : Gmap) (k v : String) : Gmap :=
  some (aupsert (m.getD []) k v)

/-- `reflect.DeepEqual` on Go string maps: nil equals only nil, otherwise the
two maps bind exactly the same keys to the same values. -/
def gmDeepEq (m₁ m₂ : Gmap) : Bool :=
  match m₁, m₂ with
  | none, none => true
  | some l₁, some l₂ =>
      (l₁.map (fun kv => kv.1) ++ l₂.map (fun kv => kv.1)).all
        (fun k => alookup l₁ k == alookup l₂ k)
  | _, _ => false

/-! ## Data model (k8s objects restricted to the fields the source reads) -/

/-- One HTTP path entry of an ingress rule (path plus its backend binding). -/
structure HTTPPath where
  path : String
  backendService : String
  backendPort : Int
  deriving DecidableEq, Repr

/-- One ingress rule: a host and its HTTP path list (a nil `HTTP` block is
conflated with an empty path list). -/
structure IngressRule where
  host : String
  paths : List HTTPPath
  deriving DecidableEq, Repr

/-- One TLS record of an ingress spec. -/
structure IngressTLS where
  hosts : List String
  secretName : String
  deriving DecidableEq, Repr

/-- An owner reference as recorded by the controller. -/
structure OwnerReference where
  apiVersion : String
  kind : String
  name : String
  uid : String
  deriving DecidableEq, Repr

/-- The spec block of an ingress. -/
structure IngressSpec where
  ingressClassName : Option String
  defaultBackend : Option String
  tls : List IngressTLS
  rules : List IngressRule
  deriving DecidableEq, Repr

/-- One load-balancer endpoint of the status block. -/
structure LBIngress where
  ip : String
  hostname : String
  deriving DecidableEq, Repr

/-- The status block of an ingress. -/
structure IngressStatus where
  lb : List LBIngress
  deriving DecidableEq, Repr

/-- An ingress object. -/
structure Ingress where
  ns : String
  name : String
  uid : String
  apiVersion : String
  creationTimestamp : Int
  resourceVersion : String
  labels : Gmap
  annotations : Gmap
  ownerReferences : List OwnerReference
  spec : IngressSpec
  status : IngressStatus
  deriving DecidableEq, Repr

/-- A config map (only name, namespace and string data are read). -/
structure ConfigMap where
  ns : String
  name : String
  data : List (String × String)
  deriving DecidableEq, Repr

/-- Go map read on config data. -/
def cfgGet (c : ConfigMap) (k : String) : String :=
  (alookup c.data k).getD ""

/-- Go comma-ok read on config data. -/
def cfgHas (c : ConfigMap) (k : String) : Bool :=
  c.data.any (fun kv => kv.1 = k)

/-! ## Slot accounting (`ingressSlots`, ingress_bucket.go) -/

/-- Slot count of one ingress, translated from `ingressSlots`: each rule
contributes `len(rule.HTTP.Paths)` or 1 when that is zero, and an ingress
whose total would be zero counts as 1. -/
def ingressSlots (i : Ingress) : Nat :=
  let slots := i.spec.rules.foldl
    (fun acc r => acc + (if r.paths.length = 0 then 1 else r.paths.length)) 0
  if slots = 0 then 1 else slots

/-! ## Bucket planner (`GenerateIngressBuckets`, ingress_bucket.go) -/

/-- The planner's `dependencyKey`: an object's name and uid. -/
structure DepKey where
  name : String
  uid : String
  deriving DecidableEq, Repr

/-- A bucket: an optional destination (existing consolidated ingress), the
remaining slot budget, and the ordered member list. -/
structure IngressBucket where
  name : String
  freeSlots : Int
  ingresses : List Ingress
  destinationIngress : Option Ingress
  deriving DecidableEq, Repr

/-- Replace-or-append insertion into the keyed seed-bucket map
(`bucketsWithDestinationMap[k] = …`). -/
def insertKeyed (m : List (DepKey × IngressBucket)) (k : DepKey) (b : IngressBucket) :
    List (DepKey × IngressBucket) :=
  match m with
  | [] => [(k, b)]
  | kv :: rest => if kv.1 = k then (k, b) :: rest else kv :: insertKeyed rest k b

/-- Replace-or-append insertion into the owner map
(`originToDestinationMap[k] = &destinations[i]`). -/
def insertOwner (m : List (DepKey × Ingress)) (k : DepKey) (d : Ingress) :
    List (DepKey × Ingress) :=
  match m with
  | [] => [(k, d)]
  | kv :: rest => if kv.1 = k then (k, d) :: rest else kv :: insertOwner rest k d

/-- Lookup in a keyed list (the keyed lists carry unique keys, so first wins). -/
def lookupKeyed {α : Type} (m : List (DepKey × α)) (k : DepKey) : Option α :=
  (m.find? (fun kv => kv.1 = k)).map (fun kv => kv.2)

/-- Seed one bucket per destination, keyed by the destination's name and uid
(first loop of `GenerateIngressBuckets`). -/
def seedBuckets (destinations : List Ingress) (maxServices : Int) :
    List (DepKey × IngressBucket) :=
  destinations.foldl
    (fun m d => insertKeyed m ⟨d.name, d.uid⟩
      { name := d.name, freeSlots := maxServices, ingresses := [],
        destinationIngress := some d })
    []

/-- Record `owner reference (name, uid) ↦ destination` for every owner
reference of kind `Ingress` (inner loop of the first loop). -/
def buildOwnerMap (destinations : List Ingress) : List (DepKey × Ingress) :=
  destinations.foldl
    (fun m d => d.ownerReferences.foldl
      (fun m ref => if ref.kind = "Ingress" then insertOwner m ⟨ref.name, ref.uid⟩ d else m)
      m)
    []

/-- Append an origin to a bucket and charge its slots. -/
def bucketAdd (o : Ingress) (b : IngressBucket) : IngressBucket :=
  { b with ingresses := b.ingresses ++ [o],
           freeSlots := b.freeSlots - (ingressSlots o : Int) }

/-- Update the seed bucket at a key in place. -/
def updateKeyed (m : List (DepKey × IngressBucket)) (k : DepKey)
    (f : IngressBucket → IngressBucket) : List (DepKey × IngressBucket) :=
  m.map (fun kv => if kv.1 = k then (kv.1, f kv.2) else kv)

/-- One step of the attach loop: a claimed origin is appended to its
destination's bucket, an unclaimed one is collected. -/
def attachStep (ownerMap : List (DepKey × Ingress))
    (acc : List (DepKey × IngressBucket) × List Ingress) (o : Ingress) :
    List (DepKey × IngressBucket) × List Ingress :=
  match lookupKeyed ownerMap ⟨o.name, o.uid⟩ with
  | some d => (updateKeyed acc.1 ⟨d.name, d.uid⟩ (bucketAdd o), acc.2)
  | none => (acc.1, acc.2 ++ [o])

/-- Attach every pre-claimed origin to its destination's bucket and collect
the unclaimed ones (second loop of `GenerateIngressBuckets`). -/
def attachOrigins (seeds : List (DepKey × IngressBucket)) (ownerMap : List (DepKey × Ingress))
    (origins : List Ingress) : List (DepKey × IngressBucket) × List Ingress :=
  origins.foldl (attachStep ownerMap) (seeds, [])

/-- Stable insertion of `x` into `l` before the first element `y` with
`lt x y` (equal elements keep their original relative order, a deterministic
refinement of Go's unstable `sort.Slice`). -/
def insertSorted {α : Type} (lt : α → α → Bool) (x : α) : List α → List α
  | [] => [x]
  | y :: ys => if lt x y then x :: y :: ys else y :: insertSorted lt x ys

/-- Stable sort by the strict comparator `lt`. -/
def sortByLt {α : Type} (lt : α → α → Bool) (l : List α) : List α :=
  l.foldl (fun acc x => insertSorted lt x acc) []

/-- Comparator for unclaimed origins: slots ascending, then creation
timestamp descending (`After` on timestamps). -/
def unclaimedLt (a b : Ingress) : Bool :=
  if ingressSlots a ≠ ingressSlots b then ingressSlots a < ingressSlots b
  else a.creationTimestamp > b.creationTimestamp

/-- Lexicographic order on character lists (Go's `<` on strings compares
UTF-8 bytes, which orders exactly like code points). -/
def charsLt : List Char → List Char → Bool
  | [], [] => false
  | [], _ :: _ => true
  | _ :: _, [] => false
  | c :: cs, d :: ds =>
      if c.toNat < d.toNat then true
      else if d.toNat < c.toNat then false
      else charsLt cs ds

/-- Go string comparison `a < b`. -/
def strLt (a b : String) : Bool :=
  charsLt a.data b.data

/-- Comparator for seeded buckets: destination name ascending. -/
def bucketLt (a b : IngressBucket) : Bool :=
  strLt a.name b.name

/-- Where the packing cursor currently points. -/
inductive CurLoc : Type where
  | seededIdx : Nat → CurLoc
  | overflowLast : CurLoc
  deriving DecidableEq, Repr

/-- State of the packing walk: the seeded buckets, the cursor position
(`reuseBucketsWithAddrPos + 1`), the overflow buckets, and the current
bucket's location. -/
structure PackState where
  seeded : List IngressBucket
  pos : Nat
  overflow : List IngressBucket
  cur : Option CurLoc
  deriving Repr

/-- First index `≥ i` of a bucket with free slots, scanning `l` from
position `i` (the advancing loop inside `nextBucket`). -/
def findFreeAux : List IngressBucket → Nat → Option Nat
  | [], _ => none
  | b :: bs, i => if b.freeSlots > 0 then some i else findFreeAux bs (i + 1)

/-- First seeded index `≥ pos` with free slots. -/
def findFree (seeded : List IngressBucket) (pos : Nat) : Option Nat :=
  findFreeAux (seeded.drop pos) pos

/-- A fresh overflow bucket. -/
def freshBucket (maxServices : Int) : IngressBucket :=
  { name := "", freeSlots := maxServices, ingresses := [], destinationIngress := none }

/-- `nextBucket`: advance the cursor to the next seeded bucket with free
slots, or allocate a fresh overflow bucket. -/
def nextBucket (maxServices : Int) (s : PackState) : PackState :=
  match findFree s.seeded s.pos with
  | some i => { s with pos := i + 1, cur := some (CurLoc.seededIdx i) }
  | none => { s with pos := s.seeded.length,
                     overflow := s.overflow ++ [freshBucket maxServices],
                     cur := some CurLoc.overflowLast }

/-- Update the element at index `i` (no-op out of range). -/
def updateAt {α : Type} (l : List α) (i : Nat) (f : α → α) : List α :=
  match l, i with
  | [], _ => []
  | x :: xs, 0 => f x :: xs
  | x :: xs, n + 1 => x :: updateAt xs n f

/-- Update the last element (no-op on the empty list). -/
def updateLast {α : Type} (l : List α) (f : α → α) : List α :=
  match l with
  | [] => []
  | [x] => [f x]
  | x :: xs => x :: updateLast xs f

/-- The bucket the cursor points at. -/
def curBucket (s : PackState) : Option IngressBucket :=
  match s.cur with
  | some (CurLoc.seededIdx i) => s.seeded.get? i
  | some CurLoc.overflowLast => s.overflow.getLast?
  | none => none

/-- Free slots of the current bucket (the cursor is always set when read). -/
def curFree (s : PackState) : Int :=
  ((curBucket s).map (fun b => b.freeSlots)).getD 0

/-- Place an origin into the current bucket. -/
def placeCur (s : PackState) (o : Ingress) : PackState :=
  match s.cur with
  | some (CurLoc.seededIdx i) => { s with seeded := updateAt s.seeded i (bucketAdd o) }
  | some CurLoc.overflowLast => { s with overflow := updateLast s.overflow (bucketAdd o) }
  | none => s

/-- One iteration of the packing loop: advance if the current bucket cannot
take the origin, then place it. -/
def packStep (maxServices : Int) (s : PackState) (o : Ingress) : PackState :=
  let s' := if curFree s - (ingressSlots o : Int) < 0 then nextBucket maxServices s else s
  placeCur s' o

/-- Pack all unclaimed origins, starting with one `nextBucket` call when the
unclaimed list is non-empty. -/
def packAll (maxServices : Int) (seeded : List IngressBucket) (unclaimed : List Ingress) :
    List IngressBucket × List IngressBucket :=
  match unclaimed with
  | [] => (seeded, [])
  | _ =>
      let s0 := nextBucket maxServices
        { seeded := seeded, pos := 0, overflow := [], cur := none }
      let s := unclaimed.foldl (packStep maxServices) s0
      (s.seeded, s.overflow)

/-- The bucket planner, translated from `GenerateIngressBuckets`. -/
def GenerateIngressBuckets (origins destinations : List Ingress) (maxServices : Int) :
    List IngressBucket :=
  let seeds := seedBuckets destinations maxServices
  let ownerMap := buildOwnerMap destinations
  let attached := attachOrigins seeds ownerMap origins
  let unclaimedSorted := sortByLt unclaimedLt attached.2
  let seededSorted := sortByLt bucketLt (attached.1.map (fun kv => kv.2))
  let packed := packAll maxServices seededSorted unclaimedSorted
  packed.1 ++ packed.2

/-! ## Derived planner quantities used by the claims -/

/-- Total slots of a bucket's members. -/
def bucketSlots (B : IngressBucket) : Nat :=
  (B.ingresses.map ingressSlots).sum

/-- The bucket key an owner map resolves for an origin. -/
def resolveKey (ownerMap : List (DepKey × Ingress)) (o : Ingress) : Option DepKey :=
  (lookupKeyed ownerMap ⟨o.name, o.uid⟩).map (fun d => ⟨d.name, d.uid⟩)

/-- The destination key the planner resolves for an origin: the last
destination whose owner references (of kind `Ingress`) carry the origin's
name and uid. -/
def claimedKey (destinations : List Ingress) (o : Ingress) : Option DepKey :=
  resolveKey (buildOwnerMap destinations) o

/-- Slot total of the origins attached to a bucket through its destination's
owner references (0 for a bucket with no destination). -/
def preclaimedSlots (origins destinations : List Ingress) (B : IngressBucket) : Nat :=
  match B.destinationIngress with
  | some d =>
      ((origins.filter (fun o => claimedKey destinations o = some ⟨d.name, d.uid⟩)).map
        ingressSlots).sum
  | none => 0

/-! ## Sample objects for concrete evaluations -/

/-- A rule with `n` identical paths. -/
def sampleRule (h : String) (n : Nat) : IngressRule :=
  { host := h, paths := (List.range n).map (fun _ => ⟨"/", "svc", 80⟩) }

/-- An origin ingress with a single rule carrying `n` paths (so `n` slots
for `n ≥ 1`). -/
def sampleOrigin (nm u : String) (n : Nat) : Ingress :=
  { ns := "ns", name := nm, uid := u, apiVersion := "networking.k8s.io/v1",
    creationTimestamp := 0, resourceVersion := "", labels := none, annotations := none,
    ownerReferences := [],
    spec := { ingressClassName := none, defaultBackend := none, tls := [],
              rules := [sampleRule (nm ++ ".example.org") n] },
    status := { lb := [] } }

/-- A destination ingress with owner references (kind `Ingress`) to the
given (name, uid) pairs. -/
def sampleDest (nm u : String) (refs : List (String × String)) : Ingress :=
  { ns := "ns", name := nm, uid := u, apiVersion := "networking.k8s.io/v1",
    creationTimestamp := 0, resourceVersion := "", labels := none, annotations := none,
    ownerReferences := refs.map (fun r => ⟨"networking.k8s.io/v1", "Ingress", r.1, r.2⟩),
    spec := { ingressClassName := none, defaultBackend := none, tls := [], rules := [] },
    status := { lb := [] } }

/-- Add a whole list of origins to a bucket, in order. -/
def bucketAddAll (os : List Ingress) (B : IngressBucket) : IngressBucket :=
  os.foldl (fun b o => bucketAdd o b) B

/-- The origins an owner map resolves to a given key, in input order. -/
def claimedList (ownerMap : List (DepKey × Ingress)) (k : DepKey) (os : List Ingress) :
    List Ingress :=
  os.filter (fun o => resolveKey ownerMap o = some k)

/-- Capacity conclusion for one bucket: within budget, or over budget only
by its final placement. -/
def capOK (maxS : Int) (B : IngressBucket) : Prop :=
  (bucketSlots B : Int) ≤ maxS ∨
    ∃ l x, B.ingresses = l ++ [x] ∧ ((l.map ingressSlots).sum : Int) < maxS

/-- Per-bucket packing invariant: free slots account for the members, and a
bucket without pre-claimed overflow satisfies the capacity conclusion. -/
def bInv (origins destinations : List Ingress) (maxS : Int) (B : IngressBucket) : Prop :=
  B.freeSlots = maxS - (bucketSlots B : Int) ∧
    ((preclaimedSlots origins destinations B : Int) ≤ maxS → capOK maxS B)

/-- Packing-state invariant: every seeded and overflow bucket satisfies
`bInv`. -/
def stInv (origins destinations : List Ingress) (maxS : Int) (s : PackState) : Prop :=
  (∀ B ∈ s.seeded, bInv origins destinations maxS B) ∧
    (∀ B ∈ s.overflow, bInv origins destinations maxS B)

/-! ## Controller constants (controller.go) -/

/-- The `kubernetes.io/ingress.class` annotation key. -/
def annIngressClass : String := "kubernetes.io/ingress.class"

/-- The `merge.ingress.kubernetes.io/config` annotation key. -/
def annConfig : String := "merge.ingress.kubernetes.io/config"

/-- The `merge.ingress.kubernetes.io/from-config` annotation key. -/
def annFromConfig : String := "merge.ingress.kubernetes.io/from-config"

/-- The `merge.ingress.kubernetes.io/priority` annotation key. -/
def annPriority : String := "merge.ingress.kubernetes.io/priority"

/-- The `merge.ingress.kubernetes.io/result` annotation key. -/
def annResult : String := "merge.ingress.kubernetes.io/result"

/-- Config-map data key for labels. -/
def labelsConfigKey : String := "labels"

/-- Config-map data key for annotations. -/
def annotationsConfigKey : String := "annotations"

/-- Config-map data key for the default backend. -/
def backendConfigKey : String := "backend"

/-- Config-map data key enabling wildcard TLS. -/
def useWildcardTLSKey : String := "use-wildcard-tls"

/-- Suffix of the wildcard TLS secret name. -/
def wildcardTLSSuffix : String := "-wildcard-tls"

/-! ## Pure controller helpers (controller.go) -/

/-- Translated from `getIngressClass`: the spec-level `IngressClassName`
wins when non-nil and non-empty, otherwise the `kubernetes.io/ingress.class`
annotation. -/
def getIngressClass (i : Ingress) : String :=
  let c := match i.spec.ingressClassName with
    | some v => v
    | none => ""
  if c = "" then gmGet i.annotations annIngressClass else c

/-- Translated from `hasIngressChanged`: compares namespace, name, labels
(deep equal), annotations (asymmetrically, over the keys of `new`), owner
references (deep equal) and spec (deep equal). -/
def hasIngressChanged (old new : Ingress) : Bool :=
  if new.ns ≠ old.ns then true
  else if new.name ≠ old.name then true
  else if gmDeepEq new.labels old.labels = false then true
  else if (gmKeys new.annotations).any
      (fun k => gmGet new.annotations k ≠ gmGet old.annotations k) then true
  else if new.ownerReferences ≠ old.ownerReferences then true
  else if new.spec ≠ old.spec then true
  else false

/-- Split a character list on a separator (Go `strings.Split`; the result is
always non-empty). -/
def splitOnChar (sep : Char) : List Char → List (List Char)
  | [] => [[]]
  | c :: cs =>
      match splitOnChar sep cs with
      | [] => [[]]
      | g :: gs => if c = sep then [] :: g :: gs else (c :: g) :: gs

/-- Join character-list groups with `.` (Go `strings.Join(…, ".")`). -/
def joinDots : List (List Char) → List Char
  | [] => []
  | [g] => g
  | g :: gs => g ++ '.' :: joinDots gs

/-- Translated from `mergeWildcardDomains`: for each rule host with more
than one dot-separated label, record `*.<suffix>` in the wildcard domain
set (a Go `map[string]bool`, modelled as a dedup-on-insert list). -/
def mergeWildcardDomains (wildcardDomains : List String) (rules : List IngressRule) :
    List String :=
  rules.foldl
    (fun wd rule =>
      match splitOnChar '.' rule.host.data with
      | [] => wd
      | _ :: rest =>
          if rest.length = 0 then wd
          else
            let key := String.mk ('*' :: '.' :: joinDots rest)
            if wd.contains key then wd else wd ++ [key])
    wildcardDomains

/-- Translated from `wildcardTLSEntry`: one TLS entry whose hosts are the
wildcard domain set (map iteration modelled in insertion order — the source
does not sort) and whose secret is named after the destination when one
exists. -/
def wildcardTLSEntry (wildcardDomains : List String) (bucket : IngressBucket) : IngressTLS :=
  let secretName := match bucket.destinationIngress with
    | some d => d.name ++ wildcardTLSSuffix
    | none => ""
  { hosts := wildcardDomains, secretName := secretName }

/-- Append paths onto the first accumulator rule with the given host
(`s.HTTP.Paths = append(s.HTTP.Paths, r.HTTP.Paths...)` through the shared
`HTTP` pointer). -/
def appendPathsFirst (host : String) (paths : List HTTPPath) :
    List IngressRule → List IngressRule
  | [] => []
  | s :: rest =>
      if s.host = host then { s with paths := s.paths ++ paths } :: rest
      else s :: appendPathsFirst host paths rest

/-- One step of the labelled `rules:` loop: merge one rule into the
accumulator, concatenating paths on a host match and appending a copy
otherwise. -/
def mergeRuleInto (rules : List IngressRule) (r : IngressRule) : List IngressRule :=
  if rules.any (fun s => s.host = r.host) then appendPathsFirst r.host r.paths rules
  else rules ++ [r]

/-- Merge all rules of one origin into the accumulator, in order. -/
def mergeRules (rules : List IngressRule) (ingressRules : List IngressRule) :
    List IngressRule :=
  ingressRules.foldl mergeRuleInto rules

/-- Accumulator of the per-member loop in `reconcileIngressBucket`. -/
structure MergeAcc where
  ownerReferences : List OwnerReference
  tls : List IngressTLS
  rules : List IngressRule
  wildcardDomains : List String
  deriving DecidableEq, Repr

/-- One member's contribution: an owner reference, either wildcard domains
or verbatim TLS entries, and its rules merged by host. -/
def mergeBucketStep (useWildcardTLS : Bool) (acc : MergeAcc) (ingress : Ingress) : MergeAcc :=
  { ownerReferences := acc.ownerReferences ++
      [⟨ingress.apiVersion, "Ingress", ingress.name, ingress.uid⟩],
    tls := if useWildcardTLS then acc.tls else acc.tls ++ ingress.spec.tls,
    wildcardDomains :=
      if useWildcardTLS then mergeWildcardDomains acc.wildcardDomains ingress.spec.rules
      else acc.wildcardDomains,
    rules := mergeRules acc.rules ingress.spec.rules }

/-- The whole per-member loop over a bucket. -/
def mergeBucket (useWildcardTLS : Bool) (ingresses : List Ingress) : MergeAcc :=
  ingresses.foldl (mergeBucketStep useWildcardTLS) ⟨[], [], [], []⟩

/-- Concatenated paths of all rules with a given host, in order. -/
def hostPaths (h : String) (rules : List IngressRule) : List HTTPPath :=
  ((rules.filter (fun r => r.host = h)).map (fun r => r.paths)).join

/-- Hosts of a rule list, in order. -/
def hostsOf (rules : List IngressRule) : List String :=
  rules.map (fun r => r.host)

/-- Paths an origin declares for a host: the concatenation of the path lists
of all its rules with that host, in order. -/
def pathsForHost (h : String) (i : Ingress) : List HTTPPath :=
  hostPaths h i.spec.rules

/-! ## YAML and integer decoding (library collaborators) -/

/-- Parse one `key: value` line (key up to the first colon, one optional
space after it). -/
def parseYamlLineAux (key : List Char) : List Char → Option (String × String)
  | [] => none
  | c :: rest =>
      if c = ':' then
        let v := match rest with
          | ' ' :: r => r
          | r => r
        if key.isEmpty then none else some (String.mk key.reverse, String.mk v)
      else parseYamlLineAux (c :: key) rest

/-- Line-based model of `yaml.Unmarshal` into `map[string]string`: every
non-blank line must be `key: value`; failure (or no content) yields the nil
map, exactly as the source substitutes `nil` on decode error. -/
def parseYamlMap (s : String) : Gmap :=
  let lines := (splitOnChar '\n' s.data).filter (fun l => ¬ l.isEmpty)
  if lines.isEmpty then none
  else
    match lines.mapM (parseYamlLineAux []) with
    | some kvs => some (kvs.foldl (fun m kv => aupsert m kv.1 kv.2) [])
    | none => none

/-- Model of `yaml.Unmarshal` into `*IngressBackend`: a non-empty fragment
decodes to an opaque backend value, an empty one to nil. -/
def parseBackend (s : String) : Option String :=
  if s = "" then none else some s

/-- Digits of a decimal numeral. -/
def parseDigits (ds : List Char) : Option Nat :=
  if ds.isEmpty then none
  else
    ds.foldl
      (fun acc c =>
        match acc with
        | none => none
        | some n => if c.isDigit then some (n * 10 + (c.toNat - 48)) else none)
      (some 0)

/-- Model of `strconv.Atoi`: optional sign followed by at least one digit. -/
def parseAtoi (s : String) : Option Int :=
  match s.data with
  | '+' :: ds => (parseDigits ds).map (fun n => (n : Int))
  | '-' :: ds => (parseDigits ds).map (fun n => -(n : Int))
  | ds => (parseDigits ds).map (fun n => (n : Int))

/-! ## Apiserver store model -/

/-- One write RPC issued by the controller. -/
inductive WriteOp : Type where
  | createOp : Ingress → WriteOp
  | updateOp : Ingress → WriteOp
  | statusOp : String → IngressStatus → WriteOp
  deriving DecidableEq, Repr

/-- Apiserver state: the ingresses and config maps of the cluster. -/
structure Store where
  ingresses : List Ingress
  configMaps : List ConfigMap
  deriving DecidableEq, Repr

/-- Typed `Get<Ingress>` by namespace and name. -/
def getIngress (st : Store) (ns nm : String) : Option Ingress :=
  st.ingresses.find? (fun i => i.ns = ns ∧ i.name = nm)

/-- Typed `Get<ConfigMap>` by namespace and name. -/
def getConfigMap (st : Store) (ns nm : String) : Option ConfigMap :=
  st.configMaps.find? (fun c => c.ns = ns ∧ c.name = nm)

/-- `Create<Ingress>`: fails (`none`) when the name already exists. -/
def createIngress (st : Store) (i : Ingress) : Option Store :=
  match getIngress st i.ns i.name with
  | some _ => none
  | none => some { st with ingresses := st.ingresses ++ [i] }

/-- `Update<Ingress>`: replaces spec and metadata in place; the status
subresource is untouched by a plain update. -/
def updateIngress (st : Store) (i : Ingress) : Store :=
  let upd := st.ingresses.map
    (fun x => if x.ns = i.ns ∧ x.name = i.name then { i with status := x.status } else x)
  { st with ingresses := upd }

/-- `UpdateStatus<Ingress>`: replaces only the status block. -/
def updateIngressStatus (st : Store) (ns nm : String) (stat : IngressStatus) : Store :=
  let upd := st.ingresses.map
    (fun x => if x.ns = ns ∧ x.name = nm then { x with status := stat } else x)
  { st with ingresses := upd }

/-! ## Bucket reconcile (`reconcileIngressBucket`, controller.go) -/

/-- Result of reconciling one bucket: the store after the writes, the write
RPCs issued in order, whether an error propagated, and whether the create
path drew a random name suffix. -/
structure BucketResult where
  store : Store
  writes : List WriteOp
  err : Bool
  usedSuffix : Bool
  deriving Repr

/-- The status reflector at the end of `reconcileIngressBucket`: copy the
merged object's status onto every member whose status differs. -/
def propagateStatus (merged : Ingress) (members : List Ingress) (st : Store) :
    Store × List WriteOp :=
  members.foldl
    (fun acc o =>
      if o.status = merged.status then acc
      else (updateIngressStatus acc.1 o.ns o.name merged.status,
            acc.2 ++ [WriteOp.statusOp o.name merged.status]))
    (st, [])

/-- Set the secret name of the first TLS entry
(`mergedIngress.Spec.TLS[0].SecretName = …`). -/
def setFirstSecret (tls : List IngressTLS) (nm : String) : List IngressTLS :=
  match tls with
  | [] => []
  | t :: rest => { t with secretName := nm } :: rest

/-- The desired consolidated object before naming: `nil` when the
self-merge guard fires (user annotations carry the watched ingress class).
Faithful to the construction in `reconcileIngressBucket`. -/
def buildMerged (cls : String) (cfg : ConfigMap) (bucket : IngressBucket) : Option Ingress :=
  let useWildcardTLS := cfgGet cfg useWildcardTLSKey = "true"
  let acc := mergeBucket useWildcardTLS bucket.ingresses
  let tls :=
    if useWildcardTLS then acc.tls ++ [wildcardTLSEntry acc.wildcardDomains bucket]
    else acc.tls
  let labels : Gmap :=
    if cfgHas cfg labelsConfigKey then parseYamlMap (cfgGet cfg labelsConfigKey) else none
  let annsDecoded : Gmap :=
    if cfgHas cfg annotationsConfigKey then parseYamlMap (cfgGet cfg annotationsConfigKey)
    else none
  if cfgHas cfg annotationsConfigKey ∧ gmGet annsDecoded annIngressClass = cls then none
  else
    let anns := gmSet (gmSet annsDecoded annFromConfig cfg.name) annResult "true"
    let backend :=
      if cfgHas cfg backendConfigKey then parseBackend (cfgGet cfg backendConfigKey) else none
    let icn := cfgGet cfg "ingressClassName"
    let icnRef := if icn = "" then none else some icn
    some
      { ns := cfg.ns, name := "", uid := "", apiVersion := "",
        creationTimestamp := 0, resourceVersion := "",
        labels := labels, annotations := anns,
        ownerReferences := (mergeBucket useWildcardTLS bucket.ingresses).ownerReferences,
        spec := { ingressClassName := icnRef, defaultBackend := backend,
                  tls := tls, rules := acc.rules },
        status := { lb := [] } }

/-- Translated from `reconcileIngressBucket`: build the desired object,
bail out cleanly on the self-merge guard, then create (fresh name from the
suffix supply, wildcard secret fixed up) or diff-and-update against the
live object, and finally reflect status onto every member. -/
def reconcileIngressBucket (cls : String) (cfg : ConfigMap) (bucket : IngressBucket)
    (suffix : String) (st : Store) : BucketResult :=
  match buildMerged cls cfg bucket with
  | none => ⟨st, [], false, false⟩
  | some base =>
      let useWildcardTLS := cfgGet cfg useWildcardTLSKey = "true"
      match bucket.destinationIngress with
      | none =>
          let nm := cfg.name ++ "-" ++ suffix
          let tls' :=
            if useWildcardTLS ∧ base.spec.tls.length > 0
            then setFirstSecret base.spec.tls (nm ++ wildcardTLSSuffix)
            else base.spec.tls
          let merged := { base with name := nm, spec := { base.spec with tls := tls' } }
          match createIngress st merged with
          | none => ⟨st, [WriteOp.createOp merged], true, true⟩
          | some st' =>
              let prop := propagateStatus merged bucket.ingresses st'
              ⟨prop.1, WriteOp.createOp merged :: prop.2, false, true⟩
      | some dest =>
          let merged := { base with name := dest.name }
          match getIngress st cfg.ns dest.name with
          | none => ⟨st, [], true, false⟩
          | some existing =>
              if hasIngressChanged existing merged then
                let merged' := { merged with resourceVersion := existing.resourceVersion }
                let st' := updateIngress st merged'
                let prop := propagateStatus { merged' with status := existing.status }
                  bucket.ingresses st'
                ⟨prop.1, WriteOp.updateOp merged' :: prop.2, false, false⟩
              else
                let prop := propagateStatus existing bucket.ingresses st
                ⟨prop.1, prop.2, false, false⟩

/-! ## Group reconcile (`reconcileConfigMap`, controller.go) -/

/-- Priority of an origin: the integer priority annotation, 0 when absent
or unparsable (`strconv.Atoi` returns 0 with an error). -/
def ingressPriority (i : Ingress) : Int :=
  if gmHas i.annotations annPriority then (parseAtoi (gmGet i.annotations annPriority)).getD 0
  else 0

/-- Sort comparator of `reconcileConfigMap`: priority descending, name
ascending as tie-break. -/
def priorityLt (a b : Ingress) : Bool :=
  if ingressPriority a > ingressPriority b then true
  else if ingressPriority a < ingressPriority b then false
  else strLt a.name b.name

/-- Running state threaded through group and bucket reconciles. -/
structure RunState where
  store : Store
  writes : List WriteOp
  err : Bool
  suffixes : List String
  deriving Repr

/-- One iteration of the bucket loop in `reconcileConfigMap`: draw a name
suffix when the bucket's reconcile creates, append its writes and aggregate
its error. -/
def bucketStep (cls : String) (cfg : ConfigMap) (rs : RunState)
    (bucket : IngressBucket) : RunState :=
  let suffix := rs.suffixes.headD ""
  let res := reconcileIngressBucket cls cfg bucket suffix rs.store
  { store := res.store,
    writes := rs.writes ++ res.writes,
    err := rs.err || res.err,
    suffixes := if res.usedSuffix then rs.suffixes.tail else rs.suffixes }

/-- Translated from `reconcileConfigMap`: sort the group's origins, plan
buckets against the group's existing consolidated ingresses, and reconcile
each bucket, aggregating errors. -/
def reconcileConfigMap (cls : String) (maxSlots : Int) (cfg : ConfigMap)
    (ingresses currentResultIngresses : List Ingress) (rs : RunState) : RunState :=
  let sorted := sortByLt priorityLt ingresses
  let buckets := GenerateIngressBuckets sorted currentResultIngresses maxSlots
  buckets.foldl (bucketStep cls cfg) rs

/-! ## Namespace reconcile (`reconcileNamespace`, controller.go) -/

/-- Translated from `isIgnored`: the object carries one of the configured
ignore annotations. -/
def isIgnored (ignoreAnns : List String) (i : Ingress) : Bool :=
  ignoreAnns.any (fun a => gmHas i.annotations a)

/-- Classification accumulator: the per-config groups (insertion order) and
the consolidated (`result=true`) ingresses. -/
structure ClassifyAcc where
  mergeMap : List (String × List Ingress)
  resultIngresses : List Ingress
  deriving Repr

/-- Append an origin to its config group (groups keep first-seen order). -/
def groupAppend (m : List (String × List Ingress)) (k : String) (o : Ingress) :
    List (String × List Ingress) :=
  match m with
  | [] => [(k, [o])]
  | kv :: rest => if kv.1 = k then (k, kv.2 ++ [o]) :: rest else kv :: groupAppend rest k o

/-- One iteration of the listing loop in `reconcileNamespace`: a
`result=true` object is collected as a consolidated ingress; otherwise the
origin must match the watched class, not be ignored, carry a parsable
priority when one is present, name a config, and that config must exist. -/
def classifyStep (cls : String) (ignoreAnns : List String) (st : Store)
    (acc : ClassifyAcc) (ingress : Ingress) : ClassifyAcc :=
  if gmGet ingress.annotations annResult = "true" then
    { acc with resultIngresses := acc.resultIngresses ++ [ingress] }
  else if getIngressClass ingress ≠ cls then acc
  else if isIgnored ignoreAnns ingress then acc
  else if gmHas ingress.annotations annPriority ∧
      parseAtoi (gmGet ingress.annotations annPriority) = none then acc
  else if ¬ gmHas ingress.annotations annConfig then acc
  else
    let cmName := gmGet ingress.annotations annConfig
    match getConfigMap st ingress.ns cmName with
    | none => acc
    | some _ => { acc with mergeMap := groupAppend acc.mergeMap cmName ingress }

/-- One iteration of the group loop in `reconcileNamespace`: look the
group's config map up again and reconcile the group against the
consolidated ingresses that declare it as their `from-config`. -/
def groupStep (cls : String) (maxSlots : Int) (st : Store) (ns : String)
    (resultIngresses : List Ingress) (rs : RunState)
    (group : String × List Ingress) : RunState :=
  let currentResultIngresses := resultIngresses.filter
    (fun ri => gmGet ri.annotations annFromConfig = group.1)
  match getConfigMap st ns group.1 with
  | none => rs
  | some cfg => reconcileConfigMap cls maxSlots cfg group.2 currentResultIngresses rs

/-- Translated from `reconcileNamespace`: list the namespace, classify and
group the origins, and reconcile every group against the consolidated
ingresses that declare it as their `from-config`. -/
def reconcileNamespace (cls : String) (maxSlots : Int) (ignoreAnns : List String)
    (ns : String) (st : Store) (suffixes : List String) : RunState :=
  let listed := st.ingresses.filter (fun i => i.ns = ns)
  let acc := listed.foldl (classifyStep cls ignoreAnns st) ⟨[], []⟩
  acc.mergeMap.foldl (groupStep cls maxSlots st ns acc.resultIngresses)
    { store := st, writes := [], err := false, suffixes := suffixes }

/-- The ingress carried by a create or update write (status writes carry
none). -/
def writeIngress : WriteOp → Option Ingress
  | WriteOp.createOp i => some i
  | WriteOp.updateOp i => some i
  | WriteOp.statusOp _ _ => none

/-- The wildcard a host contributes: strip the leftmost dot-separated label
and prefix `*.`; hosts with a single label contribute nothing. -/
def hostWildcard (hstr : String) : Option String :=
  match splitOnChar '.' hstr.data with
  | [] => none
  | _ :: rest =>
      if rest = [] then none else some (String.mk ('*' :: '.' :: joinDots rest))

/-- An origin with one single-path rule for an explicit host. -/
def sampleHostOrigin (nm u hostName : String) : Ingress :=
  { sampleOrigin nm u 1 with
      spec := { ingressClassName := none, defaultBackend := none, tls := [],
                rules := [{ host := hostName, paths := [⟨"/", "svc", 80⟩] }] } }

/-- Modelled from the spec: the released controller additionally reads a
`use-wildcard-tls-ignore` config key holding a label selector (the test
suite exercises it through `UseWildcardTLSIgnoreKey`; the merge loop
implementing it is absent from the vendored `controller.go`).  Per the
spec, an origin matching the selector keeps contributing its rules to
the merged Rules while being skipped by the wildcard collection; the
selector is abstracted as a predicate on the origin. -/
def mergeBucketStepIgnoring (matchesIgnore : Ingress → Bool) (acc : MergeAcc)
    (ingress : Ingress) : MergeAcc :=
  { ownerReferences := acc.ownerReferences ++
      [⟨ingress.apiVersion, "Ingress", ingress.name, ingress.uid⟩],
    tls := acc.tls,
    wildcardDomains :=
      if matchesIgnore ingress then acc.wildcardDomains
      else mergeWildcardDomains acc.wildcardDomains ingress.spec.rules,
    rules := mergeRules acc.rules ingress.spec.rules }

/-- Modelled from the spec: the wildcard-mode per-member loop with an
ignore selector applied to the wildcard collection only. -/
def mergeBucketIgnoring (matchesIgnore : Ingress → Bool) (ingresses : List Ingress) :
    MergeAcc :=
  ingresses.foldl (mergeBucketStepIgnoring matchesIgnore) ⟨[], [], [], []⟩

/-- Modelled from the spec: a `key=value` label selector, the concrete form
the test suite stores in `use-wildcard-tls-ignore`. -/
def labelEqSelector (key val : String) (o : Ingress) : Bool :=
  gmGet o.labels key = val

/-- An origin annotated for the watched class and the config `c`. -/
def c3origin (nm u : String) (n : Nat) : Ingress :=
  { sampleOrigin nm u n with
      annotations := some [(annIngressClass, "merge"), (annConfig, "c")] }

/-- A store with a two-slot origin `a`, a one-slot origin `b` and an empty
config map `c`. -/
def c3store : Store :=
  ⟨[c3origin "a" "ua" 2, c3origin "b" "ub" 1], [⟨"ns", "c", []⟩]⟩

/-! ## Generic list lemmas -/

lemma mem_updateAt {α : Type} {l : List α} {i : Nat} {f : α → α} {y : α}
    (hy : y ∈ updateAt l i f) : y ∈ l ∨ ∃ x, l.get? i = some x ∧ y = f x := by
  induction l generalizing i with
  | nil => simp [updateAt] at hy
  | cons a as ih =>
    cases i with
    | zero =>
      simp only [updateAt] at hy
      rcases List.mem_cons.mp hy with h | h
      · right; exact ⟨a, rfl, h⟩
      · left; exact List.mem_cons_of_mem _ h
    | succ n =>
      simp only [updateAt] at hy
      rcases List.mem_cons.mp hy with h | h
      · left; exact h ▸ List.mem_cons_self _ _
      · rcases ih h with h' | ⟨x, hx, hyx⟩
        · left; exact List.mem_cons_of_mem _ h'
        · right; exact ⟨x, hx, hyx⟩

lemma exists_mem_updateAt {α : Type} {l : List α} {x : α} (i : Nat) (f : α → α)
    (hx : x ∈ l) : ∃ y ∈ updateAt l i f, y = x ∨ y = f x := by
  induction l generalizing i with
  | nil => simp at hx
  | cons a as ih =>
    cases i with
    | zero =>
      simp only [updateAt]
      rcases List.mem_cons.mp hx with h | h
      · exact ⟨f a, List.mem_cons_self _ _, Or.inr (by rw [h])⟩
      · exact ⟨x, List.mem_cons_of_mem _ h, Or.inl rfl⟩
    | succ n =>
      simp only [updateAt]
      rcases List.mem_cons.mp hx with h | h
      · exact ⟨a, List.mem_cons_self _ _, Or.inl h.symm⟩
      · rcases ih n h with ⟨y, hy, hyx⟩
        exact ⟨y, List.mem_cons_of_mem _ hy, hyx⟩

lemma updateLast_concat {α : Type} (l : List α) (x : α) (f : α → α) :
    updateLast (l ++ [x]) f = l ++ [f x] := by
  induction l with
  | nil => rfl
  | cons a as ih =>
    cases as with
    | nil => simp [updateLast]
    | cons b bs =>
      have h1 : updateLast ((a :: b :: bs) ++ [x]) f = a :: updateLast ((b :: bs) ++ [x]) f := rfl
      rw [h1, ih]
      rfl

lemma mem_updateLast {α : Type} {l : List α} {f : α → α} {y : α}
    (hy : y ∈ updateLast l f) : y ∈ l ∨ ∃ x, l.getLast? = some x ∧ y = f x := by
  induction l with
  | nil => simp [updateLast] at hy
  | cons a as ih =>
    cases as with
    | nil =>
      simp only [updateLast] at hy
      rcases List.mem_cons.mp hy with h | h
      · right; exact ⟨a, rfl, h⟩
      · simp at h
    | cons b bs =>
      simp only [updateLast] at hy
      rcases List.mem_cons.mp hy with h | h
      · left; exact h ▸ List.mem_cons_self _ _
      · rcases ih h with h' | ⟨x, hx, hyx⟩
        · left; exact List.mem_cons_of_mem _ h'
        · right
          refine ⟨x, ?_, hyx⟩
          rw [List.getLast?_cons_cons]
          exact hx

lemma mem_insertSorted {α : Type} {lt : α → α → Bool} {x y : α} {l : List α} :
    y ∈ insertSorted lt x l ↔ y = x ∨ y ∈ l := by
  induction l with
  | nil => simp [insertSorted]
  | cons a as ih =>
    by_cases h : lt x a
    · simp [insertSorted, h]
    · simp only [insertSorted, h, Bool.false_eq_true, if_false, List.mem_cons, ih]
      tauto

lemma mem_sortAux {α : Type} {lt : α → α → Bool} {y : α} :
    ∀ {l acc : List α}, y ∈ l.foldl (fun a x => insertSorted lt x a) acc ↔ y ∈ acc ∨ y ∈ l := by
  intro l
  induction l with
  | nil => simp
  | cons a as ih =>
    intro acc
    rw [List.foldl_cons, ih]
    simp only [mem_insertSorted, List.mem_cons]
    tauto

lemma mem_sortByLt {α : Type} {lt : α → α → Bool} {y : α} {l : List α} :
    y ∈ sortByLt lt l ↔ y ∈ l := by
  unfold sortByLt
  rw [mem_sortAux]
  simp

/-! ## Planner phase lemmas -/

lemma bucketSlots_bucketAdd (o : Ingress) (B : IngressBucket) :
    bucketSlots (bucketAdd o B) = bucketSlots B + ingressSlots o := by
  simp [bucketSlots, bucketAdd]

lemma bucketAddAll_ingresses (l : List Ingress) (B : IngressBucket) :
    (bucketAddAll l B).ingresses = B.ingresses ++ l := by
  induction l generalizing B with
  | nil => simp [bucketAddAll]
  | cons o os ih =>
    show (bucketAddAll os (bucketAdd o B)).ingresses = B.ingresses ++ o :: os
    rw [ih]
    simp [bucketAdd]

lemma bucketAddAll_freeSlots (l : List Ingress) (B : IngressBucket) :
    (bucketAddAll l B).freeSlots = B.freeSlots - ((l.map ingressSlots).sum : Int) := by
  induction l generalizing B with
  | nil => simp [bucketAddAll]
  | cons o os ih =>
    show (bucketAddAll os (bucketAdd o B)).freeSlots = _
    rw [ih]
    simp [bucketAdd]
    ring

lemma bucketAddAll_dest (l : List Ingress) (B : IngressBucket) :
    (bucketAddAll l B).destinationIngress = B.destinationIngress := by
  induction l generalizing B with
  | nil => rfl
  | cons o os ih =>
    show (bucketAddAll os (bucketAdd o B)).destinationIngress = _
    rw [ih]
    rfl

lemma claimedList_cons_pos {om : List (DepKey × Ingress)} {k : DepKey} {o : Ingress}
    (os : List Ingress) (h : resolveKey om o = some k) :
    claimedList om k (o :: os) = o :: claimedList om k os := by
  simp [claimedList, List.filter_cons, h]

lemma claimedList_cons_neg {om : List (DepKey × Ingress)} {k : DepKey} {o : Ingress}
    (os : List Ingress) (h : resolveKey om o ≠ some k) :
    claimedList om k (o :: os) = claimedList om k os := by
  simp [claimedList, List.filter_cons, h]

lemma attach_foldl (om : List (DepKey × Ingress)) (os : List Ingress) :
    ∀ (seeds : List (DepKey × IngressBucket)) (u : List Ingress),
      os.foldl (attachStep om) (seeds, u)
        = (seeds.map (fun kv => (kv.1, bucketAddAll (claimedList om kv.1 os) kv.2)),
           u ++ os.filter (fun o => resolveKey om o = none)) := by
  induction os with
  | nil =>
    intro seeds u
    simp [claimedList, bucketAddAll]
  | cons o os ih =>
    intro seeds u
    rw [List.foldl_cons]
    cases h : lookupKeyed om ⟨o.name, o.uid⟩ with
    | none =>
      have hr : resolveKey om o = none := by simp [resolveKey, h]
      have hstep : attachStep om (seeds, u) o = (seeds, u ++ [o]) := by
        unfold attachStep
        rw [h]
      rw [hstep, ih, Prod.mk.injEq]
      refine ⟨?_, ?_⟩
      · apply List.map_congr_left
        intro kv _
        rw [claimedList_cons_neg os (by rw [hr]; intro hc; cases hc)]
      · rw [List.filter_cons_of_pos (by simp [hr])]
        simp
    | some d =>
      have hr : resolveKey om o = some ⟨d.name, d.uid⟩ := by simp [resolveKey, h]
      have hstep : attachStep om (seeds, u) o
          = (updateKeyed seeds ⟨d.name, d.uid⟩ (bucketAdd o), u) := by
        unfold attachStep
        rw [h]
      rw [hstep, ih, Prod.mk.injEq]
      refine ⟨?_, ?_⟩
      · unfold updateKeyed
        rw [List.map_map]
        apply List.map_congr_left
        intro kv _
        by_cases hk : kv.1 = (⟨d.name, d.uid⟩ : DepKey)
        · simp only [Function.comp_apply, hk, if_pos rfl]
          rw [claimedList_cons_pos os hr]
          rfl
        · simp only [Function.comp_apply, if_neg hk]
          rw [claimedList_cons_neg os (by rw [hr]; intro hc; exact hk (Option.some.inj hc).symm)]
      · rw [List.filter_cons_of_neg (by simp [hr])]

lemma attachOrigins_eq (seeds : List (DepKey × IngressBucket)) (om : List (DepKey × Ingress))
    (origins : List Ingress) :
    attachOrigins seeds om origins
      = (seeds.map (fun kv => (kv.1, bucketAddAll (claimedList om kv.1 origins) kv.2)),
         origins.filter (fun o => resolveKey om o = none)) := by
  unfold attachOrigins
  rw [attach_foldl]
  simp

lemma mem_insertKeyed {m : List (DepKey × IngressBucket)} {k : DepKey} {B : IngressBucket}
    {kv : DepKey × IngressBucket} (h : kv ∈ insertKeyed m k B) : kv ∈ m ∨ kv = (k, B) := by
  induction m with
  | nil =>
    simp only [insertKeyed] at h
    right
    simpa using h
  | cons a as ih =>
    simp only [insertKeyed] at h
    by_cases ha : a.1 = k
    · rw [if_pos ha] at h
      rcases List.mem_cons.mp h with h' | h'
      · right; exact h'
      · left; exact List.mem_cons_of_mem _ h'
    · rw [if_neg ha] at h
      rcases List.mem_cons.mp h with h' | h'
      · left; exact h' ▸ List.mem_cons_self _ _
      · rcases ih h' with h'' | h''
        · left; exact List.mem_cons_of_mem _ h''
        · right; exact h''

lemma mem_seedBuckets_aux (maxS : Int) :
    ∀ (dests : List Ingress) (m : List (DepKey × IngressBucket))
      (kv : DepKey × IngressBucket),
      kv ∈ dests.foldl
        (fun m d => insertKeyed m ⟨d.name, d.uid⟩
          { name := d.name, freeSlots := maxS, ingresses := [],
            destinationIngress := some d }) m →
      kv ∈ m ∨ ∃ d ∈ dests,
        kv = (⟨d.name, d.uid⟩,
          { name := d.name, freeSlots := maxS, ingresses := [],
            destinationIngress := some d }) := by
  intro dests
  induction dests with
  | nil => intro m kv h; left; exact h
  | cons d ds ih =>
    intro m kv h
    rw [List.foldl_cons] at h
    rcases ih _ kv h with h' | ⟨d', hd', he⟩
    · rcases mem_insertKeyed h' with h'' | h''
      · left; exact h''
      · right; exact ⟨d, List.mem_cons_self _ _, h''⟩
    · right; exact ⟨d', List.mem_cons_of_mem _ hd', he⟩

lemma mem_seedBuckets {dests : List Ingress} {maxS : Int} {kv : DepKey × IngressBucket}
    (h : kv ∈ seedBuckets dests maxS) :
    ∃ d ∈ dests,
      kv = (⟨d.name, d.uid⟩,
        { name := d.name, freeSlots := maxS, ingresses := [],
          destinationIngress := some d }) := by
  rcases mem_seedBuckets_aux maxS dests [] kv h with h' | h'
  · simp at h'
  · exact h'

lemma findFreeAux_spec :
    ∀ (l : List IngressBucket) (i j : Nat), findFreeAux l i = some j →
      i ≤ j ∧ ∃ b, l.get? (j - i) = some b ∧ 0 < b.freeSlots := by
  intro l
  induction l with
  | nil => intro i j h; simp [findFreeAux] at h
  | cons b bs ih =>
    intro i j h
    simp only [findFreeAux] at h
    by_cases hb : b.freeSlots > 0
    · rw [if_pos hb] at h
      have hj : j = i := (Option.some.inj h).symm
      subst hj
      exact ⟨Nat.le_refl _, b, by simp, hb⟩
    · rw [if_neg hb] at h
      rcases ih (i + 1) j h with ⟨hle, b', hb', hfree⟩
      refine ⟨by omega, b', ?_, hfree⟩
      have hidx : j - i = (j - (i + 1)) + 1 := by omega
      rw [hidx]
      simpa using hb'

lemma findFree_spec {seeded : List IngressBucket} {pos i : Nat}
    (h : findFree seeded pos = some i) :
    ∃ b, seeded.get? i = some b ∧ 0 < b.freeSlots := by
  unfold findFree at h
  rcases findFreeAux_spec _ _ _ h with ⟨hle, b, hb, hfree⟩
  refine ⟨b, ?_, hfree⟩
  rw [List.get?_drop] at hb
  have : pos + (i - pos) = i := by omega
  rwa [this] at hb

lemma mem_insertOwner {m : List (DepKey × Ingress)} {k : DepKey} {d : Ingress}
    {kv : DepKey × Ingress} (h : kv ∈ insertOwner m k d) : kv ∈ m ∨ kv = (k, d) := by
  induction m with
  | nil =>
    simp only [insertOwner] at h
    right
    simpa using h
  | cons a as ih =>
    simp only [insertOwner] at h
    by_cases ha : a.1 = k
    · rw [if_pos ha] at h
      rcases List.mem_cons.mp h with h' | h'
      · right; exact h'
      · left; exact List.mem_cons_of_mem _ h'
    · rw [if_neg ha] at h
      rcases List.mem_cons.mp h with h' | h'
      · left; exact h' ▸ List.mem_cons_self _ _
      · rcases ih h' with h'' | h''
        · left; exact List.mem_cons_of_mem _ h''
        · right; exact h''

lemma ownerMap_inner_spec (d : Ingress) :
    ∀ (refs : List OwnerReference) (m : List (DepKey × Ingress)) (kv : DepKey × Ingress),
      kv ∈ refs.foldl
        (fun m ref => if ref.kind = "Ingress" then insertOwner m ⟨ref.name, ref.uid⟩ d else m)
        m →
      kv ∈ m ∨ kv.2 = d := by
  intro refs
  induction refs with
  | nil => intro m kv h; left; exact h
  | cons ref rest ih =>
    intro m kv h
    rw [List.foldl_cons] at h
    by_cases hk : ref.kind = "Ingress"
    · rw [if_pos hk] at h
      rcases ih _ kv h with h' | h'
      · rcases mem_insertOwner h' with h'' | h''
        · left; exact h''
        · right; rw [h'']
      · right; exact h'
    · rw [if_neg hk] at h
      exact ih _ kv h

lemma mem_buildOwnerMap_aux :
    ∀ (dests : List Ingress) (m : List (DepKey × Ingress)) (kv : DepKey × Ingress),
      kv ∈ dests.foldl
        (fun m d => d.ownerReferences.foldl
          (fun m ref => if ref.kind = "Ingress" then insertOwner m ⟨ref.name, ref.uid⟩ d else m)
          m)
        m →
      kv ∈ m ∨ kv.2 ∈ dests := by
  intro dests
  induction dests with
  | nil => intro m kv h; left; exact h
  | cons d ds ih =>
    intro m kv h
    rw [List.foldl_cons] at h
    rcases ih _ kv h with h' | h'
    · rcases ownerMap_inner_spec d _ _ kv h' with h'' | h''
      · left; exact h''
      · right; exact h'' ▸ List.mem_cons_self _ _
    · right; exact List.mem_cons_of_mem _ h'

lemma mem_buildOwnerMap {dests : List Ingress} {kv : DepKey × Ingress}
    (h : kv ∈ buildOwnerMap dests) : kv.2 ∈ dests := by
  rcases mem_buildOwnerMap_aux dests [] kv h with h' | h'
  · simp at h'
  · exact h'

lemma lookupKeyed_mem {α : Type} {m : List (DepKey × α)} {k : DepKey} {v : α}
    (h : lookupKeyed m k = some v) : (k, v) ∈ m := by
  unfold lookupKeyed at h
  cases hf : m.find? (fun kv => kv.1 = k) with
  | none => rw [hf] at h; simp at h
  | some kv =>
    rw [hf] at h
    have hv : kv.2 = v := by simpa using h
    have hk : kv.1 = k := by
      have := List.find?_some hf
      simpa using this
    have hkv : kv ∈ m := List.mem_of_find?_eq_some hf
    have : (k, v) = kv := by
      cases kv
      simp_all
    rwa [this]

lemma insertKeyed_keeps {m : List (DepKey × IngressBucket)} {k₀ k : DepKey} {B₀ : IngressBucket}
    (h : ∃ B, (k, B) ∈ m) : ∃ B, (k, B) ∈ insertKeyed m k₀ B₀ := by
  induction m with
  | nil => rcases h with ⟨B, hB⟩; simp at hB
  | cons a as ih =>
    rcases h with ⟨B, hB⟩
    simp only [insertKeyed]
    by_cases ha : a.1 = k₀
    · rcases List.mem_cons.mp hB with h' | h'
      · have hk : k = k₀ := by rw [← ha, ← h']
        subst hk
        exact ⟨B₀, by rw [if_pos ha]; exact List.mem_cons_self _ _⟩
      · exact ⟨B, by rw [if_pos ha]; exact List.mem_cons_of_mem _ h'⟩
    · rcases List.mem_cons.mp hB with h' | h'
      · exact ⟨B, by rw [if_neg ha]; exact h' ▸ List.mem_cons_self _ _⟩
      · rcases ih ⟨B, h'⟩ with ⟨B', hB'⟩
        exact ⟨B', by rw [if_neg ha]; exact List.mem_cons_of_mem _ hB'⟩

lemma insertKeyed_self {m : List (DepKey × IngressBucket)} {k : DepKey} {B : IngressBucket} :
    ∃ B', (k, B') ∈ insertKeyed m k B := by
  induction m with
  | nil => exact ⟨B, List.mem_cons_self _ _⟩
  | cons a as ih =>
    simp only [insertKeyed]
    by_cases ha : a.1 = k
    · exact ⟨B, by rw [if_pos ha]; exact List.mem_cons_self _ _⟩
    · rcases ih with ⟨B', hB'⟩
      exact ⟨B', by rw [if_neg ha]; exact List.mem_cons_of_mem _ hB'⟩

lemma seedBuckets_key_exists_aux (maxS : Int) :
    ∀ (dests : List Ingress) (m : List (DepKey × IngressBucket)) (k : DepKey),
      ((∃ B, (k, B) ∈ m) ∨ ∃ d ∈ dests, k = ⟨d.name, d.uid⟩) →
      ∃ B, (k, B) ∈ dests.foldl
        (fun m d => insertKeyed m ⟨d.name, d.uid⟩
          { name := d.name, freeSlots := maxS, ingresses := [],
            destinationIngress := some d }) m := by
  intro dests
  induction dests with
  | nil =>
    intro m k h
    rcases h with h | ⟨d, hd, _⟩
    · exact h
    · simp at hd
  | cons d ds ih =>
    intro m k h
    rw [List.foldl_cons]
    rcases h with h | ⟨d', hd', hk⟩
    · exact ih _ k (Or.inl (insertKeyed_keeps h))
    · rcases List.mem_cons.mp hd' with h' | h'
      · subst h'
        exact ih _ k (Or.inl (hk ▸ insertKeyed_self))
      · exact ih _ k (Or.inr ⟨d', h', hk⟩)

lemma seedBuckets_key_exists {dests : List Ingress} {maxS : Int} {d : Ingress}
    (hd : d ∈ dests) : ∃ B, ((⟨d.name, d.uid⟩ : DepKey), B) ∈ seedBuckets dests maxS :=
  seedBuckets_key_exists_aux maxS dests [] _ (Or.inr ⟨d, hd, rfl⟩)

lemma mem_of_getLast?_eq_some {α : Type} {l : List α} {x : α} (h : l.getLast? = some x) :
    x ∈ l := by
  rcases List.mem_getLast?_eq_getLast (show x ∈ l.getLast? from Option.mem_def.mpr h) with
    ⟨hne, hx⟩
  exact hx ▸ List.getLast_mem hne

lemma ingressSlots_pos (i : Ingress) : 1 ≤ ingressSlots i := by
  unfold ingressSlots
  dsimp only
  split
  · exact Nat.le_refl 1
  · next h => omega

lemma bInv_bucketAdd {origins destinations : List Ingress} {maxS : Int} {B : IngressBucket}
    (o : Ingress) (hfree : 0 < B.freeSlots) (hB : bInv origins destinations maxS B) :
    bInv origins destinations maxS (bucketAdd o B) := by
  rcases hB with ⟨hfeq, _⟩
  constructor
  · show B.freeSlots - (ingressSlots o : Int) = maxS - (bucketSlots (bucketAdd o B) : Int)
    rw [bucketSlots_bucketAdd, hfeq]
    push_cast
    ring
  · intro _
    right
    refine ⟨B.ingresses, o, rfl, ?_⟩
    have : (bucketSlots B : Int) < maxS := by omega
    simpa [bucketSlots] using this

lemma nextBucket_stInv {origins destinations : List Ingress} {maxS : Int} {s : PackState}
    (hpos : 0 < maxS) (h : stInv origins destinations maxS s) :
    stInv origins destinations maxS (nextBucket maxS s) := by
  rcases h with ⟨hs, ho⟩
  unfold nextBucket
  cases hf : findFree s.seeded s.pos with
  | some i => exact ⟨hs, ho⟩
  | none =>
    refine ⟨hs, ?_⟩
    intro B hB
    rcases List.mem_append.mp hB with h' | h'
    · exact ho B h'
    · have hBf : B = freshBucket maxS := by simpa using h'
      subst hBf
      constructor
      · simp [freshBucket, bucketSlots]
      · intro _
        left
        simp [freshBucket, bucketSlots]
        omega

lemma placeCur_stInv {origins destinations : List Ingress} {maxS : Int} {s : PackState}
    (o : Ingress) (h : stInv origins destinations maxS s)
    (hcur : ∀ b, curBucket s = some b → 0 < b.freeSlots) :
    stInv origins destinations maxS (placeCur s o) := by
  rcases h with ⟨hs, ho⟩
  unfold placeCur
  cases hc : s.cur with
  | none => exact ⟨hs, ho⟩
  | some loc =>
    cases loc with
    | seededIdx i =>
      refine ⟨?_, ho⟩
      intro B hB
      rcases mem_updateAt hB with h' | ⟨x, hx, hBx⟩
      · exact hs B h'
      · have hxf : 0 < x.freeSlots := by
          apply hcur
          unfold curBucket
          rw [hc]
          exact hx
        exact hBx ▸ bInv_bucketAdd o hxf (hs x (List.get?_mem hx))
    | overflowLast =>
      refine ⟨hs, ?_⟩
      intro B hB
      rcases mem_updateLast hB with h' | ⟨x, hx, hBx⟩
      · exact ho B h'
      · have hxf : 0 < x.freeSlots := by
          apply hcur
          unfold curBucket
          rw [hc]
          exact hx
        have hxm : x ∈ s.overflow := mem_of_getLast?_eq_some hx
        exact hBx ▸ bInv_bucketAdd o hxf (ho x hxm)

lemma packStep_stInv {origins destinations : List Ingress} {maxS : Int} {s : PackState}
    (o : Ingress) (hpos : 0 < maxS) (h : stInv origins destinations maxS s) :
    stInv origins destinations maxS (packStep maxS s o) := by
  unfold packStep
  by_cases hc : curFree s - (ingressSlots o : Int) < 0
  · rw [if_pos hc]
    refine placeCur_stInv o (nextBucket_stInv hpos h) ?_
    intro b hb
    unfold nextBucket at hb
    cases hf : findFree s.seeded s.pos with
    | some i =>
      rw [hf] at hb
      unfold curBucket at hb
      simp only at hb
      rcases findFree_spec hf with ⟨b₀, hb₀, hfree₀⟩
      rw [hb₀] at hb
      exact (Option.some.inj hb) ▸ hfree₀
    | none =>
      rw [hf] at hb
      unfold curBucket at hb
      simp only at hb
      rw [List.getLast?_concat] at hb
      have : b = freshBucket maxS := (Option.some.inj hb).symm
      subst this
      exact hpos
  · rw [if_neg hc]
    refine placeCur_stInv o h ?_
    intro b hb
    have hcf : curFree s = b.freeSlots := by
      unfold curFree
      rw [hb]
      rfl
    have hslot : 1 ≤ ingressSlots o := ingressSlots_pos o
    omega

lemma foldl_packStep_stInv {origins destinations : List Ingress} {maxS : Int}
    (hpos : 0 < maxS) :
    ∀ (os : List Ingress) (s : PackState), stInv origins destinations maxS s →
      stInv origins destinations maxS (os.foldl (packStep maxS) s) := by
  intro os
  induction os with
  | nil => intro s h; exact h
  | cons o os ih =>
    intro s h
    rw [List.foldl_cons]
    exact ih _ (packStep_stInv o hpos h)

lemma packAll_bInv {origins destinations : List Ingress} {maxS : Int}
    (hpos : 0 < maxS) (seeded : List IngressBucket) (unclaimed : List Ingress)
    (hseed : ∀ B ∈ seeded, bInv origins destinations maxS B) :
    ∀ B ∈ (packAll maxS seeded unclaimed).1 ++ (packAll maxS seeded unclaimed).2,
      bInv origins destinations maxS B := by
  cases unclaimed with
  | nil =>
    intro B hB
    simp only [packAll] at hB
    rcases List.mem_append.mp hB with h | h
    · exact hseed B h
    · simp at h
  | cons o os =>
    intro B hB
    simp only [packAll] at hB
    have h0 : stInv origins destinations maxS
        { seeded := seeded, pos := 0, overflow := [], cur := none } := by
      refine ⟨hseed, ?_⟩
      intro B hB
      simp at hB
    have h1 := nextBucket_stInv hpos h0
    have h2 := foldl_packStep_stInv hpos (o :: os) _ h1
    rcases List.mem_append.mp hB with h | h
    · exact h2.1 B h
    · exact h2.2 B h

lemma seeded_bInv {origins destinations : List Ingress} {maxS : Int} {B : IngressBucket}
    (hB : B ∈ (attachOrigins (seedBuckets destinations maxS) (buildOwnerMap destinations)
      origins).1.map (fun kv => kv.2)) :
    bInv origins destinations maxS B := by
  rw [attachOrigins_eq, List.map_map] at hB
  rcases List.mem_map.mp hB with ⟨kv, hkv, hBkv⟩
  rcases mem_seedBuckets hkv with ⟨d, _, hkvd⟩
  subst hkvd
  have hB' : B = bucketAddAll
      (claimedList (buildOwnerMap destinations) ⟨d.name, d.uid⟩ origins)
      { name := d.name, freeSlots := maxS, ingresses := [],
        destinationIngress := some d } := hBkv.symm
  subst hB'
  have hing := bucketAddAll_ingresses
    (claimedList (buildOwnerMap destinations) ⟨d.name, d.uid⟩ origins)
    { name := d.name, freeSlots := maxS, ingresses := [], destinationIngress := some d }
  have hfree := bucketAddAll_freeSlots
    (claimedList (buildOwnerMap destinations) ⟨d.name, d.uid⟩ origins)
    { name := d.name, freeSlots := maxS, ingresses := [], destinationIngress := some d }
  have hdest := bucketAddAll_dest
    (claimedList (buildOwnerMap destinations) ⟨d.name, d.uid⟩ origins)
    { name := d.name, freeSlots := maxS, ingresses := [], destinationIngress := some d }
  have hslots : bucketSlots (bucketAddAll
      (claimedList (buildOwnerMap destinations) ⟨d.name, d.uid⟩ origins)
      { name := d.name, freeSlots := maxS, ingresses := [], destinationIngress := some d })
      = ((claimedList (buildOwnerMap destinations) ⟨d.name, d.uid⟩ origins).map
          ingressSlots).sum := by
    unfold bucketSlots
    rw [hing]
    simp
  have hpre : preclaimedSlots origins destinations (bucketAddAll
      (claimedList (buildOwnerMap destinations) ⟨d.name, d.uid⟩ origins)
      { name := d.name, freeSlots := maxS, ingresses := [], destinationIngress := some d })
      = ((claimedList (buildOwnerMap destinations) ⟨d.name, d.uid⟩ origins).map
          ingressSlots).sum := by
    unfold preclaimedSlots
    rw [hdest]
    simp [claimedList, claimedKey]
  constructor
  · rw [hfree, hslots]
  · intro hle
    left
    rw [hpre] at hle
    rw [hslots]
    exact_mod_cast hle

/-- C1 as amended: a bucket without pre-claimed overflow either stays within
the slot budget or exceeds it only through its final placement (the source
advances the cursor to any bucket with `FreeSlots > 0` and places the next
origin there without re-checking the fit). -/
theorem C1_packing_capacity (origins destinations : List Ingress) (maxS : Int)
    (hpos : 0 < maxS) :
    ∀ B ∈ GenerateIngressBuckets origins destinations maxS,
      (preclaimedSlots origins destinations B : Int) ≤ maxS →
      (bucketSlots B : Int) ≤ maxS ∨
        ∃ l x, B.ingresses = l ++ [x] ∧ ((l.map ingressSlots).sum : Int) < maxS := by
  intro B hB hpre
  unfold GenerateIngressBuckets at hB
  dsimp only at hB
  have hseed : ∀ B' ∈ sortByLt bucketLt
      ((attachOrigins (seedBuckets destinations maxS) (buildOwnerMap destinations)
        origins).1.map (fun kv => kv.2)),
      bInv origins destinations maxS B' := by
    intro B' h'
    exact seeded_bInv (mem_sortByLt.mp h')
  have hBB := packAll_bInv hpos _ _ hseed B hB
  exact hBB.2 hpre

/-- C1 witness: a one-origin input instantiating the amended theorem. -/
theorem C1_packing_capacity_witness :
    (bucketSlots ⟨"", 4, [sampleOrigin "w" "uw" 1], none⟩ : Int) ≤ 5 ∨
      ∃ l x, (⟨"", 4, [sampleOrigin "w" "uw" 1], none⟩ : IngressBucket).ingresses = l ++ [x] ∧
        ((l.map ingressSlots).sum : Int) < 5 :=
  C1_packing_capacity [sampleOrigin "w" "uw" 1] [] 5 (by decide) _ (by decide) (by decide)

lemma nextBucket_seeded (maxS : Int) (s : PackState) :
    (nextBucket maxS s).seeded = s.seeded := by
  unfold nextBucket
  cases findFree s.seeded s.pos <;> rfl

lemma placeCur_preserves_exists {s : PackState} {o : Ingress}
    (P : IngressBucket → Prop) (hP : ∀ o' B, P B → P (bucketAdd o' B))
    (h : ∃ B ∈ s.seeded, P B) : ∃ B ∈ (placeCur s o).seeded, P B := by
  unfold placeCur
  cases hc : s.cur with
  | none => exact h
  | some loc =>
    cases loc with
    | seededIdx i =>
      rcases h with ⟨B, hB, hPB⟩
      rcases exists_mem_updateAt i (bucketAdd o) hB with ⟨y, hy, hyB⟩
      refine ⟨y, hy, ?_⟩
      rcases hyB with rfl | rfl
      · exact hPB
      · exact hP o B hPB
    | overflowLast => exact h

lemma packStep_preserves_exists {maxS : Int} {s : PackState} {o : Ingress}
    (P : IngressBucket → Prop) (hP : ∀ o' B, P B → P (bucketAdd o' B))
    (h : ∃ B ∈ s.seeded, P B) : ∃ B ∈ (packStep maxS s o).seeded, P B := by
  unfold packStep
  dsimp only
  by_cases hc : curFree s - (ingressSlots o : Int) < 0
  · rw [if_pos hc]
    refine placeCur_preserves_exists P hP ?_
    rw [nextBucket_seeded]
    exact h
  · rw [if_neg hc]
    exact placeCur_preserves_exists P hP h

lemma foldl_packStep_preserves_exists {maxS : Int} (P : IngressBucket → Prop)
    (hP : ∀ o' B, P B → P (bucketAdd o' B)) :
    ∀ (os : List Ingress) (s : PackState), (∃ B ∈ s.seeded, P B) →
      ∃ B ∈ (os.foldl (packStep maxS) s).seeded, P B := by
  intro os
  induction os with
  | nil => intro s h; exact h
  | cons o os ih =>
    intro s h
    rw [List.foldl_cons]
    exact ih _ (packStep_preserves_exists P hP h)

lemma packAll_preserves_exists {maxS : Int} {seeded : List IngressBucket}
    {unclaimed : List Ingress} (P : IngressBucket → Prop)
    (hP : ∀ o' B, P B → P (bucketAdd o' B)) (h : ∃ B ∈ seeded, P B) :
    ∃ B ∈ (packAll maxS seeded unclaimed).1, P B := by
  cases unclaimed with
  | nil => exact h
  | cons o os =>
    simp only [packAll]
    refine foldl_packStep_preserves_exists P hP _ _ ?_
    rw [nextBucket_seeded]
    exact h

/-- C2 as amended: an origin is pre-claimed when some destination carries an
owner reference of kind `Ingress` matching the origin's name *and* uid; the
owner map resolves the last such destination (for pairwise-distinct
destination keys there is only one), and the origin always lands in that
destination's bucket, even when its free slots go negative. -/
theorem C2_affinity (origins destinations : List Ingress) (maxS : Int) (o d : Ingress)
    (hnodup : (destinations.map (fun x => (⟨x.name, x.uid⟩ : DepKey))).Nodup)
    (ho : o ∈ origins)
    (hres : lookupKeyed (buildOwnerMap destinations) ⟨o.name, o.uid⟩ = some d) :
    ∃ B ∈ GenerateIngressBuckets origins destinations maxS,
      o ∈ B.ingresses ∧ B.destinationIngress = some d := by
  have hd : d ∈ destinations := mem_buildOwnerMap (lookupKeyed_mem hres)
  rcases @seedBuckets_key_exists destinations maxS d hd with ⟨B₀, hB₀⟩
  rcases mem_seedBuckets hB₀ with ⟨d₀, hd₀, hkvd⟩
  have hkey : (⟨d.name, d.uid⟩ : DepKey) = ⟨d₀.name, d₀.uid⟩ := congrArg Prod.fst hkvd
  have hdd : d₀ = d := by
    have := List.inj_on_of_nodup_map hnodup hd₀ hd
    exact this hkey.symm
  subst hdd
  have hB₀seed : B₀ = ⟨d₀.name, maxS, [], some d₀⟩ := congrArg Prod.snd hkvd
  -- the attached value for this seed entry
  have hmem₁ : ((⟨d₀.name, d₀.uid⟩ : DepKey), bucketAddAll
      (claimedList (buildOwnerMap destinations) ⟨d₀.name, d₀.uid⟩ origins) B₀)
      ∈ (attachOrigins (seedBuckets destinations maxS) (buildOwnerMap destinations)
        origins).1 := by
    rw [attachOrigins_eq]
    have := List.mem_map_of_mem
      (fun kv : DepKey × IngressBucket =>
        (kv.1, bucketAddAll (claimedList (buildOwnerMap destinations) kv.1 origins) kv.2))
      hB₀
    simpa using this
  have hP : o ∈ (bucketAddAll
        (claimedList (buildOwnerMap destinations) ⟨d₀.name, d₀.uid⟩ origins) B₀).ingresses ∧
      (bucketAddAll (claimedList (buildOwnerMap destinations) ⟨d₀.name, d₀.uid⟩ origins)
        B₀).destinationIngress = some d₀ := by
    constructor
    · rw [bucketAddAll_ingresses]
      apply List.mem_append_right
      apply List.mem_filter.mpr
      refine ⟨ho, ?_⟩
      simp only [resolveKey, hres, Option.map_some', decide_eq_true_eq]
    · rw [bucketAddAll_dest, hB₀seed]
  have hmem₂ : bucketAddAll
      (claimedList (buildOwnerMap destinations) ⟨d₀.name, d₀.uid⟩ origins) B₀
      ∈ sortByLt bucketLt
        ((attachOrigins (seedBuckets destinations maxS) (buildOwnerMap destinations)
          origins).1.map (fun kv => kv.2)) := by
    apply mem_sortByLt.mpr
    exact List.mem_map_of_mem (fun kv => kv.2) hmem₁
  have hEx := @packAll_preserves_exists maxS
    (sortByLt bucketLt
      ((attachOrigins (seedBuckets destinations maxS) (buildOwnerMap destinations)
        origins).1.map (fun kv => kv.2)))
    (sortByLt unclaimedLt
      ((attachOrigins (seedBuckets destinations maxS) (buildOwnerMap destinations)
        origins).2))
    (fun B => o ∈ B.ingresses ∧ B.destinationIngress = some d₀)
    (by
      intro o' B hB
      refine ⟨?_, ?_⟩
      · show o ∈ B.ingresses ++ [o']
        exact List.mem_append_left _ hB.1
      · show B.destinationIngress = some d₀
        exact hB.2)
    ⟨_, hmem₂, hP⟩
  rcases hEx with ⟨B, hB, hPB⟩
  refine ⟨B, ?_, hPB⟩
  unfold GenerateIngressBuckets
  dsimp only
  exact List.mem_append_left _ hB

/-- C2 witness: a concrete pre-claimed origin instantiating the amended
theorem. -/
theorem C2_affinity_witness :
    ∃ B ∈ GenerateIngressBuckets [sampleOrigin "w" "uw" 1]
        [sampleDest "c" "dc" [("w", "uw")]] 5,
      (sampleOrigin "w" "uw" 1) ∈ B.ingresses ∧
        B.destinationIngress = some (sampleDest "c" "dc" [("w", "uw")]) :=
  C2_affinity [sampleOrigin "w" "uw" 1] [sampleDest "c" "dc" [("w", "uw")]] 5
    (sampleOrigin "w" "uw" 1) (sampleDest "c" "dc" [("w", "uw")])
    (by decide) (by decide) (by decide)

/-! ## C5: slot accounting -/

lemma foldl_add_eq_sum {α : Type} (g : α → Nat) (l : List α) (a : Nat) :
    l.foldl (fun acc x => acc + g x) a = a + (l.map g).sum := by
  induction l generalizing a with
  | nil => simp
  | cons x xs ih => simp [List.foldl_cons, ih, Nat.add_assoc]

/-- C5: `ingressSlots` returns `max(1, Σ_rule max(1, |rule.paths|))`; an
ingress with no rules counts as exactly 1 slot and a rule with zero paths
contributes exactly 1. -/
theorem C5_slot_accounting (i : Ingress) :
    ingressSlots i = Nat.max 1 ((i.spec.rules.map (fun r => Nat.max 1 r.paths.length)).sum) := by
  unfold ingressSlots
  dsimp only
  rw [foldl_add_eq_sum (fun r : IngressRule => if r.paths.length = 0 then 1 else r.paths.length)
    i.spec.rules 0]
  have hmap : i.spec.rules.map (fun r => if r.paths.length = 0 then 1 else r.paths.length)
      = i.spec.rules.map (fun r => Nat.max 1 r.paths.length) := by
    apply List.map_congr_left
    intro r _
    rcases Nat.eq_zero_or_pos r.paths.length with h | h
    · simp [h]
    · simp [Nat.ne_of_gt h, Nat.pos_iff_ne_zero.mp h, Nat.max_eq_right h]
  rw [hmap]
  rcases Nat.eq_zero_or_pos ((i.spec.rules.map (fun r => Nat.max 1 r.paths.length)).sum) with h | h
  · simp [h]
  · rw [Nat.zero_add, if_neg (Nat.pos_iff_ne_zero.mp h)]
    exact (Nat.max_eq_right h).symm

/-! ## C1: packing capacity -/

/-- C1 counterexample: with `maxSlots = 10`, destinations `a` (no owners)
and `b` (owning the 9-slot origin `p`), and unclaimed origins of 5 and 6
slots, the packing cursor advances into bucket `b` (free slots 1 > 0) and
places the 6-slot origin there unconditionally, so bucket `b` ends with
15 > 10 slots even though its pre-claimed total is only 9 ≤ 10. -/
theorem C1_packing_capacity_cex :
    ∃ B ∈ GenerateIngressBuckets
        [sampleOrigin "p" "up" 9, sampleOrigin "o1" "u1" 5, sampleOrigin "o2" "u2" 6]
        [sampleDest "a" "da" [], sampleDest "b" "db" [("p", "up")]] 10,
      preclaimedSlots
          [sampleOrigin "p" "up" 9, sampleOrigin "o1" "u1" 5, sampleOrigin "o2" "u2" 6]
          [sampleDest "a" "da" [], sampleDest "b" "db" [("p", "up")]] B ≤ 10 ∧
        ¬ bucketSlots B ≤ 10 := by
  decide

/-! ## C2: affinity -/

/-- C2 counterexample: origin `y` has uid `u7`, and destination `c` carries
an owner reference with uid `u7` but name `x`; the planner matches owner
references by (kind, name, uid), so `y` is not attached to `c`'s bucket and
is packed into a fresh bucket instead (bucket `c` being full). -/
theorem C2_affinity_cex :
    ∃ B ∈ GenerateIngressBuckets
        [sampleOrigin "p" "up" 2, sampleOrigin "y" "u7" 1]
        [sampleDest "c" "dc" [("p", "up"), ("x", "u7")]] 2,
      (sampleOrigin "y" "u7" 1) ∈ B.ingresses ∧
        B.destinationIngress ≠ some (sampleDest "c" "dc" [("p", "up"), ("x", "u7")]) := by
  decide

/-! ## C7 and C10: the diff predicate -/

lemma gmDeepEq_refl (m : Gmap) : gmDeepEq m m = true := by
  cases m with
  | none => rfl
  | some l =>
    simp [gmDeepEq, List.all_eq_true]

/-- C7: `hasIngressChanged` returns `false` whenever live (`old`) and
desired (`new`) agree on namespace, name, labels, owner references and
spec, and every annotation key of the desired object reads the same on the
live one — extra annotations only on the live object never trigger an
update. -/
theorem C7_asymmetric_diff (old new : Ingress)
    (hns : new.ns = old.ns) (hnm : new.name = old.name)
    (hlb : gmDeepEq new.labels old.labels = true)
    (hann : ∀ k ∈ gmKeys new.annotations, gmGet new.annotations k = gmGet old.annotations k)
    (hor : new.ownerReferences = old.ownerReferences)
    (hsp : new.spec = old.spec) :
    hasIngressChanged old new = false := by
  unfold hasIngressChanged
  rw [if_neg (by simp [hns]), if_neg (by simp [hnm]), if_neg (by simp [hlb]),
    if_neg ?hann, if_neg (by simp [hor]), if_neg (by simp [hsp])]
  case hann =>
    intro hcontra
    rw [List.any_eq_true] at hcontra
    rcases hcontra with ⟨k, hk, hne⟩
    rw [decide_eq_true_eq] at hne
    exact hne (hann k hk)

/-- C7 witness: the live object carries an extra third-party annotation;
no change is reported (the scenario of `TestHasIngressChangedAnnotations`). -/
theorem C7_asymmetric_diff_witness :
    hasIngressChanged
      { sampleOrigin "x" "u" 1 with
          annotations := some [("external-managed-field-01", "t"), ("ingress-field-01", "test")] }
      { sampleOrigin "x" "u" 1 with
          annotations := some [("ingress-field-01", "test")] } = false :=
  C7_asymmetric_diff _ _ (by decide) (by decide) (by decide) (by decide) (by decide) (by decide)

/-- C10: `hasIngressChanged` inspects only namespace, name, labels,
annotations, owner references and spec; two objects agreeing on those six
fields — whatever their status, resource version, uid, creation timestamp
or api version — are reported unchanged, so status drift alone never
triggers an update. -/
theorem C10_diff_frame (old new : Ingress)
    (hns : new.ns = old.ns) (hnm : new.name = old.name)
    (hlb : new.labels = old.labels) (hann : new.annotations = old.annotations)
    (hor : new.ownerReferences = old.ownerReferences) (hsp : new.spec = old.spec) :
    hasIngressChanged old new = false := by
  apply C7_asymmetric_diff old new hns hnm
  · rw [hlb]; exact gmDeepEq_refl _
  · intro k _
    rw [hann]
  · exact hor
  · exact hsp

/-- C10 witness: objects differing only in status and resource version are
reported unchanged. -/
theorem C10_diff_frame_witness :
    hasIngressChanged
      { sampleOrigin "x" "u" 1 with resourceVersion := "1" }
      { sampleOrigin "x" "u" 1 with
          resourceVersion := "2", status := { lb := [⟨"9.9.9.9", ""⟩] } } = false :=
  C10_diff_frame _ _ rfl rfl rfl rfl rfl rfl

/-! ## C4: merge of rules by host -/

lemma hostsOf_appendPathsFirst (h : String) (ps : List HTTPPath) (l : List IngressRule) :
    hostsOf (appendPathsFirst h ps l) = hostsOf l := by
  induction l with
  | nil => rfl
  | cons s rest ih =>
    simp only [appendPathsFirst]
    by_cases hs : s.host = h
    · rw [if_pos hs]
      simp [hostsOf]
    · rw [if_neg hs]
      simp only [hostsOf, List.map_cons]
      simp only [hostsOf] at ih
      rw [ih]

lemma hostPaths_cons (h : String) (r : IngressRule) (rest : List IngressRule) :
    hostPaths h (r :: rest)
      = (if r.host = h then r.paths else []) ++ hostPaths h rest := by
  unfold hostPaths
  rw [List.filter_cons]
  by_cases hr : r.host = h
  · simp [hr]
  · simp [hr]

lemma hostPaths_append (h : String) (l₁ l₂ : List IngressRule) :
    hostPaths h (l₁ ++ l₂) = hostPaths h l₁ ++ hostPaths h l₂ := by
  unfold hostPaths
  rw [List.filter_append, List.map_append]
  exact List.join_append _ _

lemma hostPaths_eq_nil_of_not_mem {h : String} {l : List IngressRule}
    (hm : h ∉ hostsOf l) : hostPaths h l = [] := by
  unfold hostPaths
  have : l.filter (fun r => r.host = h) = [] := by
    rw [List.filter_eq_nil]
    intro r hr
    simp only [decide_eq_true_eq]
    intro hrh
    exact hm (hrh ▸ List.mem_map_of_mem (fun r => r.host) hr)
  rw [this]
  rfl

lemma hostPaths_appendPathsFirst {h h₀ : String} {ps : List HTTPPath}
    {acc : List IngressRule} (hnd : (hostsOf acc).Nodup)
    (hmem : acc.any (fun s => s.host = h₀) = true) :
    hostPaths h (appendPathsFirst h₀ ps acc)
      = hostPaths h acc ++ (if h₀ = h then ps else []) := by
  induction acc with
  | nil => simp at hmem
  | cons s rest ih =>
    simp only [appendPathsFirst]
    have hnds : s.host ∉ hostsOf rest := by
      simp only [hostsOf, List.map_cons] at hnd
      exact (List.nodup_cons.mp hnd).1
    have hndr : (hostsOf rest).Nodup := by
      simp only [hostsOf, List.map_cons] at hnd
      exact (List.nodup_cons.mp hnd).2
    by_cases hs : s.host = h₀
    · rw [if_pos hs]
      rw [hostPaths_cons, hostPaths_cons]
      by_cases hh : h₀ = h
      · have hsh : s.host = h := hs.trans hh
        have hrest : hostPaths h rest = [] :=
          hostPaths_eq_nil_of_not_mem (hsh ▸ hnds)
        simp only [hsh, if_pos rfl, if_pos hh, hrest]
        simp
      · have hsh : ¬ s.host = h := fun hc => hh (hs ▸ hc)
        simp [hsh, hh]
    · rw [if_neg hs]
      have hmem' : rest.any (fun s => s.host = h₀) = true := by
        rcases List.any_eq_true.mp hmem with ⟨r, hr, hrh⟩
        rcases List.mem_cons.mp hr with h' | h'
        · exfalso
          rw [decide_eq_true_eq] at hrh
          exact hs (h' ▸ hrh)
        · exact List.any_eq_true.mpr ⟨r, h', hrh⟩
      rw [hostPaths_cons, hostPaths_cons, ih hndr hmem']
      by_cases hsh : s.host = h <;> simp [hsh]

lemma hostsOf_mergeRuleInto (acc : List IngressRule) (r : IngressRule) :
    hostsOf (mergeRuleInto acc r)
      = if acc.any (fun s => s.host = r.host) then hostsOf acc else hostsOf acc ++ [r.host] := by
  unfold mergeRuleInto
  by_cases hc : acc.any (fun s => s.host = r.host) = true
  · rw [if_pos hc, if_pos hc]
    exact hostsOf_appendPathsFirst _ _ _
  · rw [if_neg hc, if_neg hc]
    simp [hostsOf]

lemma nodup_hostsOf_mergeRuleInto {acc : List IngressRule} (r : IngressRule)
    (hnd : (hostsOf acc).Nodup) : (hostsOf (mergeRuleInto acc r)).Nodup := by
  rw [hostsOf_mergeRuleInto]
  by_cases hc : acc.any (fun s => s.host = r.host) = true
  · rw [if_pos hc]; exact hnd
  · rw [if_neg hc]
    have hnm : r.host ∉ hostsOf acc := by
      intro hmem
      rcases List.mem_map.mp hmem with ⟨s, hs, hsh⟩
      exact hc (List.any_eq_true.mpr ⟨s, hs, by rw [decide_eq_true_eq]; exact hsh⟩)
    rw [List.nodup_append]
    exact ⟨hnd, List.nodup_singleton _, by simpa using hnm⟩

lemma hostPaths_mergeRuleInto {acc : List IngressRule} (r : IngressRule) (h : String)
    (hnd : (hostsOf acc).Nodup) :
    hostPaths h (mergeRuleInto acc r)
      = hostPaths h acc ++ (if r.host = h then r.paths else []) := by
  unfold mergeRuleInto
  by_cases hc : acc.any (fun s => s.host = r.host) = true
  · rw [if_pos hc]
    exact hostPaths_appendPathsFirst hnd hc
  · rw [if_neg hc, hostPaths_append, hostPaths_cons]
    simp [hostPaths]

lemma nodup_hostsOf_mergeRules {acc : List IngressRule} (rs : List IngressRule)
    (hnd : (hostsOf acc).Nodup) : (hostsOf (mergeRules acc rs)).Nodup := by
  induction rs generalizing acc with
  | nil => exact hnd
  | cons r rest ih =>
    rw [mergeRules, List.foldl_cons]
    exact ih (nodup_hostsOf_mergeRuleInto r hnd)

lemma hostPaths_mergeRules {acc : List IngressRule} (rs : List IngressRule) (h : String)
    (hnd : (hostsOf acc).Nodup) :
    hostPaths h (mergeRules acc rs) = hostPaths h acc ++ hostPaths h rs := by
  induction rs generalizing acc with
  | nil => simp [mergeRules, hostPaths]
  | cons r rest ih =>
    rw [mergeRules, List.foldl_cons]
    have := ih (nodup_hostsOf_mergeRuleInto r hnd)
    rw [mergeRules] at this
    rw [this, hostPaths_mergeRuleInto r h hnd, hostPaths_cons]
    simp

lemma mem_hostsOf_mergeRules {acc : List IngressRule} (rs : List IngressRule) (h : String) :
    h ∈ hostsOf (mergeRules acc rs) ↔ h ∈ hostsOf acc ∨ ∃ r ∈ rs, r.host = h := by
  induction rs generalizing acc with
  | nil => simp [mergeRules]
  | cons r rest ih =>
    rw [mergeRules, List.foldl_cons]
    have := @ih (mergeRuleInto acc r)
    rw [mergeRules] at this
    rw [this, hostsOf_mergeRuleInto]
    by_cases hc : acc.any (fun s => s.host = r.host) = true
    · rw [if_pos hc]
      constructor
      · rintro (hm | hm)
        · exact Or.inl hm
        · right; rcases hm with ⟨r', hr', hh⟩; exact ⟨r', List.mem_cons_of_mem _ hr', hh⟩
      · rintro (hm | ⟨r', hr', hh⟩)
        · exact Or.inl hm
        · rcases List.mem_cons.mp hr' with h' | h'
          · left
            rcases List.any_eq_true.mp hc with ⟨s, hs, hsh⟩
            rw [decide_eq_true_eq] at hsh
            subst h'
            exact hh ▸ (hsh ▸ List.mem_map_of_mem (fun r => r.host) hs)
          · exact Or.inr ⟨r', h', hh⟩
    · rw [if_neg hc]
      simp only [List.mem_append, List.mem_singleton]
      constructor
      · rintro ((hm | hm) | hm)
        · exact Or.inl hm
        · right; exact ⟨r, List.mem_cons_self _ _, hm.symm⟩
        · right; rcases hm with ⟨r', hr', hh⟩; exact ⟨r', List.mem_cons_of_mem _ hr', hh⟩
      · rintro (hm | ⟨r', hr', hh⟩)
        · exact Or.inl (Or.inl hm)
        · rcases List.mem_cons.mp hr' with h' | h'
          · left; right; rw [← hh, h']
          · right; exact ⟨r', h', hh⟩

lemma filter_map_singleton_of_nodup {R : List IngressRule} {h : String}
    (hnd : (hostsOf R).Nodup) (hm : h ∈ hostsOf R) :
    (R.filter (fun r => r.host = h)).map (fun r => r.paths) = [hostPaths h R] := by
  induction R with
  | nil => simp [hostsOf] at hm
  | cons s rest ih =>
    have hnds : s.host ∉ hostsOf rest := by
      simp only [hostsOf, List.map_cons] at hnd
      exact (List.nodup_cons.mp hnd).1
    have hndr : (hostsOf rest).Nodup := by
      simp only [hostsOf, List.map_cons] at hnd
      exact (List.nodup_cons.mp hnd).2
    rw [List.filter_cons]
    by_cases hs : s.host = h
    · rw [if_pos (by simpa using hs)]
      have hrest : rest.filter (fun r => r.host = h) = [] := by
        rw [List.filter_eq_nil]
        intro r hr
        simp only [decide_eq_true_eq]
        intro hrh
        exact hnds (hs ▸ hrh ▸ List.mem_map_of_mem (fun r => r.host) hr)
      rw [hrest]
      rw [hostPaths_cons, if_pos hs,
        hostPaths_eq_nil_of_not_mem (show h ∉ hostsOf rest from hs ▸ hnds)]
      simp
    · rw [if_neg (by simpa using hs)]
      have hm' : h ∈ hostsOf rest := by
        simp only [hostsOf, List.map_cons, List.mem_cons] at hm
        rcases hm with hm | hm
        · exact absurd hm.symm hs
        · exact hm
      rw [ih hndr hm', hostPaths_cons, if_neg hs]
      rfl

lemma mergeBucket_two_rules (u : Bool) (O1 O2 : Ingress) :
    (mergeBucket u [O1, O2]).rules
      = mergeRules (mergeRules [] O1.spec.rules) O2.spec.rules := rfl

/-- C4: when the two origins of a bucket both declare rules for the same
host, the merged rule list carries exactly one rule for that host, and its
path list is O1's paths for that host followed by O2's, in bucket order,
duplicates kept. -/
theorem C4_merge_rules_by_host (u : Bool) (O1 O2 : Ingress) (h : String)
    (h1 : ∃ r ∈ O1.spec.rules, r.host = h) (h2 : ∃ r ∈ O2.spec.rules, r.host = h) :
    ((mergeBucket u [O1, O2]).rules.filter (fun r => r.host = h)).map (fun r => r.paths)
      = [pathsForHost h O1 ++ pathsForHost h O2] := by
  rw [mergeBucket_two_rules]
  have hnd0 : (hostsOf ([] : List IngressRule)).Nodup := by simp [hostsOf]
  have hnd1 : (hostsOf (mergeRules [] O1.spec.rules)).Nodup :=
    nodup_hostsOf_mergeRules _ hnd0
  have hnd2 : (hostsOf (mergeRules (mergeRules [] O1.spec.rules) O2.spec.rules)).Nodup :=
    nodup_hostsOf_mergeRules _ hnd1
  have hm : h ∈ hostsOf (mergeRules (mergeRules [] O1.spec.rules) O2.spec.rules) := by
    rw [mem_hostsOf_mergeRules]
    left
    rw [mem_hostsOf_mergeRules]
    right
    exact h1
  rw [filter_map_singleton_of_nodup hnd2 hm]
  rw [hostPaths_mergeRules _ h hnd1, hostPaths_mergeRules _ h hnd0]
  unfold pathsForHost
  simp [hostPaths]

/-- C4 witness: two origins with the same host, paths `/a` and `/b`. -/
theorem C4_merge_rules_by_host_witness :
    ((mergeBucket false
        [{ sampleOrigin "o1" "u1" 1 with
             spec := { ingressClassName := none, defaultBackend := none, tls := [],
                       rules := [⟨"x.example.org", [⟨"/a", "s1", 80⟩]⟩] } },
         { sampleOrigin "o2" "u2" 1 with
             spec := { ingressClassName := none, defaultBackend := none, tls := [],
                       rules := [⟨"x.example.org", [⟨"/b", "s2", 80⟩]⟩] } }]).rules.filter
      (fun r => r.host = "x.example.org")).map (fun r => r.paths)
      = [pathsForHost "x.example.org"
            { sampleOrigin "o1" "u1" 1 with
                spec := { ingressClassName := none, defaultBackend := none, tls := [],
                          rules := [⟨"x.example.org", [⟨"/a", "s1", 80⟩]⟩] } } ++
          pathsForHost "x.example.org"
            { sampleOrigin "o2" "u2" 1 with
                spec := { ingressClassName := none, defaultBackend := none, tls := [],
                          rules := [⟨"x.example.org", [⟨"/b", "s2", 80⟩]⟩] } }] :=
  C4_merge_rules_by_host false _ _ "x.example.org"
    ⟨⟨"x.example.org", [⟨"/a", "s1", 80⟩]⟩, by decide, rfl⟩
    ⟨⟨"x.example.org", [⟨"/b", "s2", 80⟩]⟩, by decide, rfl⟩

/-! ## C6: the self-merge guard -/

lemma alookup_cons (kv : String × String) (rest : List (String × String)) (k' : String) :
    alookup (kv :: rest) k' = if kv.1 = k' then some kv.2 else alookup rest k' := by
  unfold alookup
  simp only [List.find?]
  by_cases h : kv.1 = k'
  · simp [h]
  · simp [h]

lemma alookup_aupsert_ne {l : List (String × String)} {k k' v : String} (hne : k' ≠ k) :
    alookup (aupsert l k v) k' = alookup l k' := by
  induction l with
  | nil =>
    rw [show aupsert [] k v = [(k, v)] from rfl, alookup_cons]
    rw [if_neg (fun h => hne h.symm)]
  | cons kv rest ih =>
    simp only [aupsert]
    by_cases hk : kv.1 = k
    · rw [if_pos hk, alookup_cons, alookup_cons]
      rw [if_neg (fun h => hne h.symm), if_neg (fun h : kv.1 = k' => hne (hk ▸ h).symm)]
    · rw [if_neg hk, alookup_cons, alookup_cons]
      by_cases hkv : kv.1 = k'
      · rw [if_pos hkv, if_pos hkv]
      · rw [if_neg hkv, if_neg hkv, ih]

lemma gmGet_gmSet_ne {m : Gmap} {k k' v : String} (hne : k' ≠ k) :
    gmGet (gmSet m k v) k' = gmGet m k' := by
  cases m with
  | none =>
    simp only [gmSet, Option.getD, gmGet]
    rw [alookup_aupsert_ne hne]
    rfl
  | some l =>
    simp only [gmSet, Option.getD, gmGet]
    rw [alookup_aupsert_ne hne]

lemma propagateStatus_foldl_none (merged : Ingress) :
    ∀ (ms : List Ingress) (p : Store × List WriteOp),
      (∀ w ∈ p.2, writeIngress w = none) →
      ∀ w ∈ (ms.foldl
        (fun acc o =>
          if o.status = merged.status then acc
          else (updateIngressStatus acc.1 o.ns o.name merged.status,
                acc.2 ++ [WriteOp.statusOp o.name merged.status])) p).2,
        writeIngress w = none := by
  intro ms
  induction ms with
  | nil => intro p hp; exact hp
  | cons o os ih =>
    intro p hp
    rw [List.foldl_cons]
    apply ih
    by_cases ho : o.status = merged.status
    · rw [if_pos ho]; exact hp
    · rw [if_neg ho]
      intro w hw
      rcases List.mem_append.mp hw with h' | h'
      · exact hp w h'
      · have : w = WriteOp.statusOp o.name merged.status := by simpa using h'
        rw [this]
        rfl

lemma propagateStatus_writes_none (merged : Ingress) (ms : List Ingress) (st : Store) :
    ∀ w ∈ (propagateStatus merged ms st).2, writeIngress w = none := by
  unfold propagateStatus
  exact propagateStatus_foldl_none merged ms (st, []) (by intro w hw; simp at hw)

lemma filterMap_writeIngress_propagate (merged : Ingress) (ms : List Ingress) (st : Store) :
    ((propagateStatus merged ms st).2).filterMap writeIngress = [] := by
  rw [List.filterMap_eq_nil]
  exact propagateStatus_writes_none merged ms st

lemma buildMerged_guard {cls : String} {cfg : ConfigMap} {bucket : IngressBucket}
    {base : Ingress} (h : buildMerged cls cfg bucket = some base) :
    ¬ (cfgHas cfg annotationsConfigKey ∧
        gmGet (if cfgHas cfg annotationsConfigKey
               then parseYamlMap (cfgGet cfg annotationsConfigKey) else none)
          annIngressClass = cls) ∧
    base.annotations = gmSet (gmSet
      (if cfgHas cfg annotationsConfigKey
       then parseYamlMap (cfgGet cfg annotationsConfigKey) else none)
      annFromConfig cfg.name) annResult "true" := by
  unfold buildMerged at h
  dsimp only at h
  by_cases hg : cfgHas cfg annotationsConfigKey = true ∧
      gmGet (if cfgHas cfg annotationsConfigKey = true
             then parseYamlMap (cfgGet cfg annotationsConfigKey) else none)
        annIngressClass = cls
  · rw [if_pos hg] at h
    cases h
  · rw [if_neg hg] at h
    refine ⟨hg, ?_⟩
    have hb := Option.some.inj h
    rw [← hb]

lemma reconcileIngressBucket_writes_shape (cls : String) (cfg : ConfigMap)
    (bucket : IngressBucket) (suffix : String) (st : Store) :
    ∀ i ∈ (reconcileIngressBucket cls cfg bucket suffix st).writes.filterMap writeIngress,
      ∃ base, buildMerged cls cfg bucket = some base ∧
        i.annotations = base.annotations ∧
        ((bucket.destinationIngress = none ∧ i.name = cfg.name ++ "-" ++ suffix ∧
            i.spec.tls = (if (cfgGet cfg useWildcardTLSKey = "true") ∧ 0 < base.spec.tls.length
              then setFirstSecret base.spec.tls ((cfg.name ++ "-" ++ suffix) ++ wildcardTLSSuffix)
              else base.spec.tls)) ∨
          (∃ dest, bucket.destinationIngress = some dest ∧ i.name = dest.name ∧
            i.spec.tls = base.spec.tls)) := by
  intro i hi
  unfold reconcileIngressBucket at hi
  cases hb : buildMerged cls cfg bucket with
  | none =>
    rw [hb] at hi
    simp at hi
  | some base =>
    rw [hb] at hi
    refine ⟨base, rfl, ?_⟩
    dsimp only at hi
    cases hdest : bucket.destinationIngress with
    | none =>
      rw [hdest] at hi
      dsimp only at hi
      cases hcr : createIngress st { base with
          name := cfg.name ++ "-" ++ suffix,
          spec := { base.spec with
            tls := if (cfgGet cfg useWildcardTLSKey = "true") ∧ 0 < base.spec.tls.length
              then setFirstSecret base.spec.tls
                ((cfg.name ++ "-" ++ suffix) ++ wildcardTLSSuffix)
              else base.spec.tls } } with
      | none =>
        rw [hcr] at hi
        simp only [List.filterMap_cons, List.filterMap_nil, writeIngress] at hi
        have heq := List.mem_singleton.mp hi
        subst heq
        exact ⟨rfl, Or.inl ⟨rfl, rfl, rfl⟩⟩
      | some st2 =>
        rw [hcr] at hi
        simp only [List.filterMap_cons, writeIngress,
          filterMap_writeIngress_propagate] at hi
        have heq := List.mem_singleton.mp hi
        subst heq
        exact ⟨rfl, Or.inl ⟨rfl, rfl, rfl⟩⟩
    | some dest =>
      rw [hdest] at hi
      dsimp only at hi
      cases hget : getIngress st cfg.ns dest.name with
      | none =>
        rw [hget] at hi
        simp at hi
      | some existing =>
        rw [hget] at hi
        dsimp only at hi
        split at hi
        · simp only [List.filterMap_cons, writeIngress,
            filterMap_writeIngress_propagate] at hi
          have heq := List.mem_singleton.mp hi
          subst heq
          exact ⟨rfl, Or.inr ⟨dest, rfl, rfl, rfl⟩⟩
        · rw [filterMap_writeIngress_propagate] at hi
          simp at hi

/-- C6 counterexample: a config whose `ingressClassName` equals the watched
class is not guarded against — the controller creates a consolidated
ingress whose effective ingress class is the watched class itself. -/
theorem C6_ingress_class_cex :
    ∃ i ∈ (reconcileIngressBucket "merge"
        ⟨"ns", "c", [("ingressClassName", "merge")]⟩
        ⟨"", 45, [sampleHostOrigin "o1" "u1" "a.example.org"], none⟩
        "abcdefg" ⟨[], []⟩).writes.filterMap writeIngress,
      getIngressClass i = "merge" := by
  decide

/-- C6 as amended: the guard covers only the `kubernetes.io/ingress.class`
key of the config's decoded annotations — when it maps to the (non-empty)
watched class, the bucket reconcile returns without writes and without
error; no created or updated object ever carries the watched class in that
annotation.  The spec-level `ingressClassName` config key is not checked. -/
theorem C6_self_merge_guard (cls : String) (cfg : ConfigMap) (bucket : IngressBucket)
    (suffix : String) (st : Store) (hcls : cls ≠ "") :
    ((cfgHas cfg annotationsConfigKey ∧
        gmGet (parseYamlMap (cfgGet cfg annotationsConfigKey)) annIngressClass = cls) →
      reconcileIngressBucket cls cfg bucket suffix st
        = ⟨st, [], false, false⟩) ∧
    ∀ i ∈ (reconcileIngressBucket cls cfg bucket suffix st).writes.filterMap writeIngress,
      gmGet i.annotations annIngressClass ≠ cls := by
  constructor
  · intro hg
    have hnone : buildMerged cls cfg bucket = none := by
      unfold buildMerged
      dsimp only
      rw [if_pos ⟨hg.1, by rw [if_pos hg.1]; exact hg.2⟩]
    unfold reconcileIngressBucket
    rw [hnone]
  · intro i hi
    rcases reconcileIngressBucket_writes_shape cls cfg bucket suffix st i hi with
      ⟨base, hb, hann, _⟩
    rcases buildMerged_guard hb with ⟨hg, hanns⟩
    rw [hann, hanns]
    rw [gmGet_gmSet_ne (by decide), gmGet_gmSet_ne (by decide)]
    by_cases hhas : cfgHas cfg annotationsConfigKey = true
    · rw [if_pos hhas]
      intro hc
      exact hg ⟨hhas, by rw [if_pos hhas]; exact hc⟩
    · rw [if_neg hhas]
      show gmGet none annIngressClass ≠ cls
      intro hc
      exact hcls hc.symm

/-- C6 witness: a config whose decoded annotations set the watched class —
the bucket reconcile is a clean no-op. -/
theorem C6_self_merge_guard_witness :
    reconcileIngressBucket "merge"
        ⟨"ns", "c", [("annotations", "kubernetes.io/ingress.class: merge")]⟩
        ⟨"", 45, [sampleHostOrigin "o1" "u1" "a.example.org"], none⟩
        "abcdefg" ⟨[], []⟩
      = ⟨⟨[], []⟩, [], false, false⟩ :=
  (C6_self_merge_guard "merge"
    ⟨"ns", "c", [("annotations", "kubernetes.io/ingress.class: merge")]⟩
    ⟨"", 45, [sampleHostOrigin "o1" "u1" "a.example.org"], none⟩
    "abcdefg" ⟨[], []⟩ (by decide)).1 (by decide)

/-! ## C9: the wildcard TLS entry -/

lemma mergeWildcardDomains_cons (wd : List String) (r : IngressRule) (rs : List IngressRule) :
    mergeWildcardDomains wd (r :: rs) = mergeWildcardDomains (mergeWildcardDomains wd [r]) rs :=
  rfl

lemma mem_mergeWildcardDomains_single (wd : List String) (r : IngressRule) (hst : String) :
    hst ∈ mergeWildcardDomains wd [r] ↔ hst ∈ wd ∨ hostWildcard r.host = some hst := by
  unfold mergeWildcardDomains hostWildcard
  rw [List.foldl_cons, List.foldl_nil]
  cases hsp : splitOnChar '.' r.host.data with
  | nil => simp
  | cons c rest =>
    dsimp only
    by_cases hr : rest.length = 0
    · rw [if_pos hr]
      have hre : rest = [] := List.length_eq_zero.mp hr
      simp [hre]
    · rw [if_neg hr]
      have hne : ¬ rest = [] := by
        intro hc
        rw [hc] at hr
        exact hr rfl
      rw [if_neg hne]
      by_cases hcon : wd.contains (String.mk ('*' :: '.' :: joinDots rest)) = true
      · rw [if_pos hcon]
        have hmem : String.mk ('*' :: '.' :: joinDots rest) ∈ wd := by
          rw [← List.elem_iff]
          exact hcon
        constructor
        · intro h
          exact Or.inl h
        · rintro (h | h)
          · exact h
          · rw [← Option.some.inj h]
            exact hmem
      · rw [if_neg hcon]
        rw [List.mem_append]
        constructor
        · rintro (h | h)
          · exact Or.inl h
          · right
            rw [List.mem_singleton.mp h]
        · rintro (h | h)
          · exact Or.inl h
          · right
            rw [List.mem_singleton]
            exact (Option.some.inj h).symm

lemma nodup_mergeWildcardDomains_single {wd : List String} (r : IngressRule)
    (hnd : wd.Nodup) : (mergeWildcardDomains wd [r]).Nodup := by
  unfold mergeWildcardDomains
  rw [List.foldl_cons, List.foldl_nil]
  cases hsp : splitOnChar '.' r.host.data with
  | nil => exact hnd
  | cons c rest =>
    dsimp only
    by_cases hr : rest.length = 0
    · rw [if_pos hr]; exact hnd
    · rw [if_neg hr]
      by_cases hcon : wd.contains (String.mk ('*' :: '.' :: joinDots rest)) = true
      · rw [if_pos hcon]; exact hnd
      · rw [if_neg hcon]
        rw [List.nodup_append]
        refine ⟨hnd, List.nodup_singleton _, ?_⟩
        intro a ha hb
        rw [List.mem_singleton.mp hb] at ha
        exact hcon (List.elem_iff.mpr ha)

lemma mem_mergeWildcardDomains (rs : List IngressRule) :
    ∀ (wd : List String) (hst : String),
      hst ∈ mergeWildcardDomains wd rs ↔
        hst ∈ wd ∨ ∃ r ∈ rs, hostWildcard r.host = some hst := by
  induction rs with
  | nil =>
    intro wd hst
    simp [mergeWildcardDomains]
  | cons r rest ih =>
    intro wd hst
    rw [mergeWildcardDomains_cons, ih, mem_mergeWildcardDomains_single]
    constructor
    · rintro ((h | h) | h)
      · exact Or.inl h
      · exact Or.inr ⟨r, List.mem_cons_self _ _, h⟩
      · rcases h with ⟨r', hr', hh⟩
        exact Or.inr ⟨r', List.mem_cons_of_mem _ hr', hh⟩
    · rintro (h | ⟨r', hr', hh⟩)
      · exact Or.inl (Or.inl h)
      · rcases List.mem_cons.mp hr' with h' | h'
        · exact Or.inl (Or.inr (h' ▸ hh))
        · exact Or.inr ⟨r', h', hh⟩

lemma nodup_mergeWildcardDomains (rs : List IngressRule) :
    ∀ (wd : List String), wd.Nodup → (mergeWildcardDomains wd rs).Nodup := by
  induction rs with
  | nil => intro wd hnd; exact hnd
  | cons r rest ih =>
    intro wd hnd
    rw [mergeWildcardDomains_cons]
    exact ih _ (nodup_mergeWildcardDomains_single r hnd)

lemma mergeBucket_foldl_tls_true (l : List Ingress) :
    ∀ acc : MergeAcc, (l.foldl (mergeBucketStep true) acc).tls = acc.tls := by
  induction l with
  | nil => intro acc; rfl
  | cons o os ih =>
    intro acc
    rw [List.foldl_cons, ih]
    rfl

lemma mergeBucket_foldl_wd_true (l : List Ingress) :
    ∀ (acc : MergeAcc) (hst : String),
      hst ∈ (l.foldl (mergeBucketStep true) acc).wildcardDomains ↔
        hst ∈ acc.wildcardDomains ∨
          ∃ o ∈ l, ∃ r ∈ o.spec.rules, hostWildcard r.host = some hst := by
  induction l with
  | nil =>
    intro acc hst
    simp
  | cons o os ih =>
    intro acc hst
    rw [List.foldl_cons, ih]
    have hstep : (mergeBucketStep true acc o).wildcardDomains
        = mergeWildcardDomains acc.wildcardDomains o.spec.rules := rfl
    rw [hstep, mem_mergeWildcardDomains]
    constructor
    · rintro ((h | h) | h)
      · exact Or.inl h
      · rcases h with ⟨r, hr, hh⟩
        exact Or.inr ⟨o, List.mem_cons_self _ _, r, hr, hh⟩
      · rcases h with ⟨o', ho', hrest⟩
        exact Or.inr ⟨o', List.mem_cons_of_mem _ ho', hrest⟩
    · rintro (h | ⟨o', ho', hrest⟩)
      · exact Or.inl (Or.inl h)
      · rcases List.mem_cons.mp ho' with h' | h'
        · exact Or.inl (Or.inr (h' ▸ hrest))
        · exact Or.inr ⟨o', h', hrest⟩

lemma mergeBucket_foldl_wd_nodup_true (l : List Ingress) :
    ∀ acc : MergeAcc, acc.wildcardDomains.Nodup →
      (l.foldl (mergeBucketStep true) acc).wildcardDomains.Nodup := by
  induction l with
  | nil => intro acc hnd; exact hnd
  | cons o os ih =>
    intro acc hnd
    rw [List.foldl_cons]
    exact ih _ (nodup_mergeWildcardDomains _ _ hnd)

lemma buildMerged_tls_wildcard {cls : String} {cfg : ConfigMap} {bucket : IngressBucket}
    {base : Ingress} (hw : cfgGet cfg useWildcardTLSKey = "true")
    (h : buildMerged cls cfg bucket = some base) :
    base.spec.tls
      = [wildcardTLSEntry (mergeBucket true bucket.ingresses).wildcardDomains bucket] := by
  unfold buildMerged at h
  dsimp only at h
  by_cases hg : cfgHas cfg annotationsConfigKey = true ∧
      gmGet (if cfgHas cfg annotationsConfigKey = true
             then parseYamlMap (cfgGet cfg annotationsConfigKey) else none)
        annIngressClass = cls
  · rw [if_pos hg] at h
    cases h
  · rw [if_neg hg] at h
    have hb := Option.some.inj h
    rw [← hb]
    dsimp only
    rw [decide_eq_true hw, if_pos hw]
    rw [show (mergeBucket true bucket.ingresses).tls = [] from
      mergeBucket_foldl_tls_true bucket.ingresses ⟨[], [], [], []⟩]
    rfl

/-- C9 counterexample: in wildcard mode with member hosts `z.bbb` then
`z.aaa`, the emitted TLS entry's host list follows map-insertion order
`["*.bbb", "*.aaa"]`, which is not sorted — the source never sorts the
wildcard set. -/
theorem C9_wildcard_sorted_cex :
    ∃ i ∈ (reconcileIngressBucket "merge"
        ⟨"ns", "c", [("use-wildcard-tls", "true")]⟩
        ⟨"", 45, [sampleHostOrigin "o1" "u1" "z.bbb", sampleHostOrigin "o2" "u2" "z.aaa"], none⟩
        "abcdefg" ⟨[], []⟩).writes.filterMap writeIngress,
      i.spec.tls.map (fun t => t.hosts) = [["*.bbb", "*.aaa"]] ∧
        ["*.bbb", "*.aaa"] ≠ sortByLt strLt ["*.bbb", "*.aaa"] := by
  decide

/-- C9 as amended: in wildcard mode every created or updated consolidated
object carries exactly one TLS entry; its hosts are the deduplicated
wildcards of the members' multi-label rule hosts, in map-iteration order
(not sorted), and its secret is named `<name>-wildcard-tls` after the
consolidated object. -/
theorem C9_wildcard_tls (cls : String) (cfg : ConfigMap) (bucket : IngressBucket)
    (suffix : String) (st : Store)
    (hw : cfgGet cfg useWildcardTLSKey = "true") :
    ∀ i ∈ (reconcileIngressBucket cls cfg bucket suffix st).writes.filterMap writeIngress,
      i.spec.tls.length = 1 ∧
      ∀ t ∈ i.spec.tls,
        t.secretName = i.name ++ wildcardTLSSuffix ∧
        t.hosts.Nodup ∧
        ∀ hst, hst ∈ t.hosts ↔
          ∃ o ∈ bucket.ingresses, ∃ r ∈ o.spec.rules, hostWildcard r.host = some hst := by
  intro i hi
  rcases reconcileIngressBucket_writes_shape cls cfg bucket suffix st i hi with
    ⟨base, hb, _, hcase⟩
  have htls := buildMerged_tls_wildcard hw hb
  have hwd : ∀ hst, hst ∈ (mergeBucket true bucket.ingresses).wildcardDomains ↔
      ∃ o ∈ bucket.ingresses, ∃ r ∈ o.spec.rules, hostWildcard r.host = some hst := by
    intro hst
    unfold mergeBucket
    rw [mergeBucket_foldl_wd_true]
    simp
  have hnd : (mergeBucket true bucket.ingresses).wildcardDomains.Nodup := by
    unfold mergeBucket
    exact mergeBucket_foldl_wd_nodup_true bucket.ingresses ⟨[], [], [], []⟩ (by simp)
  rcases hcase with ⟨hdest, hnm, hitls⟩ | ⟨dest, hdest, hnm, hitls⟩
  · rw [htls] at hitls
    have hp : 0 < [wildcardTLSEntry
        (mergeBucket true bucket.ingresses).wildcardDomains bucket].length := by
      rw [List.length_singleton]
      exact Nat.zero_lt_one
    rw [if_pos ⟨hw, hp⟩] at hitls
    refine ⟨by rw [hitls]; rfl, ?_⟩
    intro t ht
    rw [hitls] at ht
    have hteq : t = (⟨(mergeBucket true bucket.ingresses).wildcardDomains,
        cfg.name ++ "-" ++ suffix ++ wildcardTLSSuffix⟩ : IngressTLS) := by
      simpa [setFirstSecret, wildcardTLSEntry] using ht
    subst hteq
    refine ⟨by rw [hnm], hnd, hwd⟩
  · rw [htls] at hitls
    refine ⟨by rw [hitls]; rfl, ?_⟩
    intro t ht
    rw [hitls] at ht
    have hteq : t = wildcardTLSEntry (mergeBucket true bucket.ingresses).wildcardDomains
        bucket := List.mem_singleton.mp ht
    subst hteq
    refine ⟨?_, hnd, hwd⟩
    show (match bucket.destinationIngress with
      | some d => d.name ++ wildcardTLSSuffix
      | none => "") = i.name ++ wildcardTLSSuffix
    rw [hdest, hnm]

/-- C9 witness: a one-origin wildcard bucket instantiating the amended
theorem — the created object has exactly one TLS entry. -/
theorem C9_wildcard_tls_witness :
    ((((reconcileIngressBucket "merge" ⟨"ns", "c", [("use-wildcard-tls", "true")]⟩
        ⟨"", 45, [sampleHostOrigin "o1" "u1" "a.example.org"], none⟩
        "abcdefg" ⟨[], []⟩).writes.filterMap writeIngress).headD
      (sampleOrigin "x" "u" 1)).spec.tls.length) = 1 :=
  (C9_wildcard_tls "merge" ⟨"ns", "c", [("use-wildcard-tls", "true")]⟩
    ⟨"", 45, [sampleHostOrigin "o1" "u1" "a.example.org"], none⟩
    "abcdefg" ⟨[], []⟩ (by decide) _ (by decide)).1

/-! ## C8: the wildcard ignore selector (modelled from the spec) -/

lemma mergeBucketIgnoring_foldl_rules (matchesIgnore : Ingress → Bool)
    (l : List Ingress) :
    ∀ (acc acc' : MergeAcc), acc.rules = acc'.rules →
      (l.foldl (mergeBucketStepIgnoring matchesIgnore) acc).rules
        = (l.foldl (mergeBucketStep true) acc').rules := by
  induction l with
  | nil => intro acc acc' h; exact h
  | cons o os ih =>
    intro acc acc' h
    rw [List.foldl_cons, List.foldl_cons]
    refine ih _ _ ?_
    show mergeRules acc.rules o.spec.rules = mergeRules acc'.rules o.spec.rules
    rw [h]

lemma mergeBucketIgnoring_foldl_wd (matchesIgnore : Ingress → Bool)
    (l : List Ingress) :
    ∀ (acc : MergeAcc) (hst : String),
      hst ∈ (l.foldl (mergeBucketStepIgnoring matchesIgnore) acc).wildcardDomains ↔
        hst ∈ acc.wildcardDomains ∨
          ∃ o ∈ l, matchesIgnore o = false ∧
            ∃ r ∈ o.spec.rules, hostWildcard r.host = some hst := by
  induction l with
  | nil =>
    intro acc hst
    simp
  | cons o os ih =>
    intro acc hst
    rw [List.foldl_cons, ih]
    by_cases hm : matchesIgnore o = true
    · have hstep : (mergeBucketStepIgnoring matchesIgnore acc o).wildcardDomains
          = acc.wildcardDomains := by
        unfold mergeBucketStepIgnoring
        dsimp only
        rw [if_pos hm]
      rw [hstep]
      constructor
      · rintro (h | ⟨o', ho', hmf, hrest⟩)
        · exact Or.inl h
        · exact Or.inr ⟨o', List.mem_cons_of_mem _ ho', hmf, hrest⟩
      · rintro (h | ⟨o', ho', hmf, hrest⟩)
        · exact Or.inl h
        · rcases List.mem_cons.mp ho' with h' | h'
          · rw [h'] at hmf
            rw [hm] at hmf
            cases hmf
          · exact Or.inr ⟨o', h', hmf, hrest⟩
    · have hmf0 : matchesIgnore o = false := by
        cases hv : matchesIgnore o
        · rfl
        · exact absurd hv hm
      have hstep : (mergeBucketStepIgnoring matchesIgnore acc o).wildcardDomains
          = mergeWildcardDomains acc.wildcardDomains o.spec.rules := by
        unfold mergeBucketStepIgnoring
        dsimp only
        rw [if_neg hm]
      rw [hstep, mem_mergeWildcardDomains]
      constructor
      · rintro ((h | ⟨r, hr, hh⟩) | ⟨o', ho', hmf, hrest⟩)
        · exact Or.inl h
        · exact Or.inr ⟨o, List.mem_cons_self _ _, hmf0, r, hr, hh⟩
        · exact Or.inr ⟨o', List.mem_cons_of_mem _ ho', hmf, hrest⟩
      · rintro (h | ⟨o', ho', hmf, hrest⟩)
        · exact Or.inl (Or.inl h)
        · rcases List.mem_cons.mp ho' with h' | h'
          · exact Or.inl (Or.inr (h' ▸ hrest))
          · exact Or.inr ⟨o', h', hmf, hrest⟩

/-- C8: with wildcard TLS on and an ignore selector, selector-matching
origins still contribute their rules — the merged Rules equal those of the
selector-free wildcard merge — while exactly the non-matching origins'
multi-label rule hosts reach the wildcard set. -/
theorem C8_wildcard_ignore (matchesIgnore : Ingress → Bool) (ingresses : List Ingress) :
    (mergeBucketIgnoring matchesIgnore ingresses).rules
        = (mergeBucket true ingresses).rules ∧
      ∀ hst, hst ∈ (mergeBucketIgnoring matchesIgnore ingresses).wildcardDomains ↔
        ∃ o ∈ ingresses, matchesIgnore o = false ∧
          ∃ r ∈ o.spec.rules, hostWildcard r.host = some hst := by
  constructor
  · exact mergeBucketIgnoring_foldl_rules matchesIgnore ingresses
      ⟨[], [], [], []⟩ ⟨[], [], [], []⟩ rfl
  · intro hst
    unfold mergeBucketIgnoring
    rw [mergeBucketIgnoring_foldl_wd]
    simp

/-! ## C3: idempotence of the namespace reconcile -/

lemma propagateStatus_foldl_store (merged : Ingress) :
    ∀ (ms : List Ingress) (p : Store × List WriteOp),
      (ms.foldl
        (fun acc o =>
          if o.status = merged.status then acc
          else (updateIngressStatus acc.1 o.ns o.name merged.status,
                acc.2 ++ [WriteOp.statusOp o.name merged.status])) p).2 = [] →
      (ms.foldl
        (fun acc o =>
          if o.status = merged.status then acc
          else (updateIngressStatus acc.1 o.ns o.name merged.status,
                acc.2 ++ [WriteOp.statusOp o.name merged.status])) p).1 = p.1 ∧
        p.2 = [] := by
  intro ms
  induction ms with
  | nil => intro p h; exact ⟨rfl, h⟩
  | cons o os ih =>
    intro p h
    rw [List.foldl_cons] at h ⊢
    by_cases ho : o.status = merged.status
    · rw [if_pos ho] at h ⊢
      exact ih p h
    · rw [if_neg ho] at h ⊢
      rcases ih _ h with ⟨h1, h2⟩
      simp at h2

lemma propagateStatus_writes_nil (merged : Ingress) (ms : List Ingress) (st : Store)
    (h : (propagateStatus merged ms st).2 = []) :
    (propagateStatus merged ms st).1 = st := by
  unfold propagateStatus at h ⊢
  exact (propagateStatus_foldl_store merged ms (st, []) h).1

lemma reconcileIngressBucket_writes_nil (cls : String) (cfg : ConfigMap)
    (bucket : IngressBucket) (suffix : String) (st : Store)
    (h : (reconcileIngressBucket cls cfg bucket suffix st).writes = []) :
    (reconcileIngressBucket cls cfg bucket suffix st).store = st ∧
      (reconcileIngressBucket cls cfg bucket suffix st).usedSuffix = false := by
  unfold reconcileIngressBucket at h ⊢
  cases hb : buildMerged cls cfg bucket with
  | none =>
    exact ⟨rfl, rfl⟩
  | some base =>
    rw [hb] at h
    dsimp only at h ⊢
    cases hdest : bucket.destinationIngress with
    | none =>
      rw [hdest] at h
      dsimp only at h ⊢
      cases hcr : createIngress st { base with
          name := cfg.name ++ "-" ++ suffix,
          spec := { base.spec with
            tls := if (cfgGet cfg useWildcardTLSKey = "true") ∧ 0 < base.spec.tls.length
              then setFirstSecret base.spec.tls
                ((cfg.name ++ "-" ++ suffix) ++ wildcardTLSSuffix)
              else base.spec.tls } } with
      | none =>
        rw [hcr] at h
        simp at h
      | some st2 =>
        rw [hcr] at h
        simp at h
    | some dest =>
      rw [hdest] at h
      dsimp only at h ⊢
      cases hget : getIngress st cfg.ns dest.name with
      | none =>
        exact ⟨rfl, rfl⟩
      | some existing =>
        rw [hget] at h
        dsimp only at h ⊢
        by_cases hch : hasIngressChanged existing { base with name := dest.name } = true
        · rw [if_pos hch] at h
          simp at h
        · rw [if_neg hch] at h ⊢
          exact ⟨propagateStatus_writes_nil existing bucket.ingresses st h, rfl⟩

lemma foldl_runstate_writes_mono {α : Type} (f : RunState → α → RunState)
    (hmono : ∀ (rs : RunState) (b : α), ∃ w, (f rs b).writes = rs.writes ++ w)
    (l : List α) :
    ∀ rs : RunState, ∃ w, (l.foldl f rs).writes = rs.writes ++ w := by
  induction l with
  | nil => intro rs; exact ⟨[], (List.append_nil _).symm⟩
  | cons b bs ih =>
    intro rs
    rw [List.foldl_cons]
    rcases ih (f rs b) with ⟨w1, hw1⟩
    rcases hmono rs b with ⟨w2, hw2⟩
    exact ⟨w2 ++ w1, by rw [hw1, hw2, List.append_assoc]⟩

lemma foldl_runstate_writes_nil {α : Type} (f : RunState → α → RunState)
    (hmono : ∀ (rs : RunState) (b : α), ∃ w, (f rs b).writes = rs.writes ++ w)
    (hstep : ∀ (rs : RunState) (b : α), (f rs b).writes = [] →
        (f rs b).store = rs.store ∧ (f rs b).suffixes = rs.suffixes)
    (l : List α) :
    ∀ rs : RunState, (l.foldl f rs).writes = [] →
      (l.foldl f rs).store = rs.store ∧ (l.foldl f rs).suffixes = rs.suffixes ∧
        rs.writes = [] := by
  induction l with
  | nil => intro rs h; exact ⟨rfl, rfl, h⟩
  | cons b bs ih =>
    intro rs h
    rw [List.foldl_cons] at h ⊢
    rcases ih (f rs b) h with ⟨h1, h2, h3⟩
    rcases hstep rs b h3 with ⟨h4, h5⟩
    rcases hmono rs b with ⟨w, hw⟩
    rw [h3] at hw
    rcases List.append_eq_nil.mp hw.symm with ⟨hrs, -⟩
    exact ⟨h1.trans h4, h2.trans h5, hrs⟩

lemma bucketStep_writes_mono (cls : String) (cfg : ConfigMap) (rs : RunState)
    (bucket : IngressBucket) :
    ∃ w, (bucketStep cls cfg rs bucket).writes = rs.writes ++ w :=
  ⟨(reconcileIngressBucket cls cfg bucket (rs.suffixes.headD "") rs.store).writes, rfl⟩

lemma bucketStep_writes_nil (cls : String) (cfg : ConfigMap) (rs : RunState)
    (bucket : IngressBucket) (h : (bucketStep cls cfg rs bucket).writes = []) :
    (bucketStep cls cfg rs bucket).store = rs.store ∧
      (bucketStep cls cfg rs bucket).suffixes = rs.suffixes := by
  have h' : rs.writes ++
      (reconcileIngressBucket cls cfg bucket (rs.suffixes.headD "") rs.store).writes
      = [] := h
  rcases List.append_eq_nil.mp h' with ⟨h1, h2⟩
  rcases reconcileIngressBucket_writes_nil cls cfg bucket (rs.suffixes.headD "")
    rs.store h2 with ⟨hs, hu⟩
  refine ⟨hs, ?_⟩
  show (if (reconcileIngressBucket cls cfg bucket (rs.suffixes.headD "") rs.store).usedSuffix
      = true then rs.suffixes.tail else rs.suffixes) = rs.suffixes
  rw [hu, if_neg Bool.false_ne_true]

lemma reconcileConfigMap_writes_mono (cls : String) (maxSlots : Int) (cfg : ConfigMap)
    (ingresses currentResultIngresses : List Ingress) (rs : RunState) :
    ∃ w, (reconcileConfigMap cls maxSlots cfg ingresses currentResultIngresses rs).writes
      = rs.writes ++ w := by
  unfold reconcileConfigMap
  exact foldl_runstate_writes_mono (bucketStep cls cfg)
    (bucketStep_writes_mono cls cfg) _ rs

lemma reconcileConfigMap_writes_nil (cls : String) (maxSlots : Int) (cfg : ConfigMap)
    (ingresses currentResultIngresses : List Ingress) (rs : RunState)
    (h : (reconcileConfigMap cls maxSlots cfg ingresses currentResultIngresses rs).writes
      = []) :
    (reconcileConfigMap cls maxSlots cfg ingresses currentResultIngresses rs).store
        = rs.store ∧
      (reconcileConfigMap cls maxSlots cfg ingresses currentResultIngresses rs).suffixes
        = rs.suffixes ∧ rs.writes = [] := by
  unfold reconcileConfigMap at h ⊢
  exact foldl_runstate_writes_nil (bucketStep cls cfg)
    (bucketStep_writes_mono cls cfg) (bucketStep_writes_nil cls cfg) _ rs h

lemma groupStep_writes_mono (cls : String) (maxSlots : Int) (st : Store) (ns : String)
    (resultIngresses : List Ingress) (rs : RunState) (group : String × List Ingress) :
    ∃ w, (groupStep cls maxSlots st ns resultIngresses rs group).writes
      = rs.writes ++ w := by
  unfold groupStep
  dsimp only
  cases hc : getConfigMap st ns group.1 with
  | none => exact ⟨[], (List.append_nil _).symm⟩
  | some cfg => exact reconcileConfigMap_writes_mono cls maxSlots cfg group.2 _ rs

lemma groupStep_writes_nil (cls : String) (maxSlots : Int) (st : Store) (ns : String)
    (resultIngresses : List Ingress) (rs : RunState) (group : String × List Ingress)
    (h : (groupStep cls maxSlots st ns resultIngresses rs group).writes = []) :
    (groupStep cls maxSlots st ns resultIngresses rs group).store = rs.store ∧
      (groupStep cls maxSlots st ns resultIngresses rs group).suffixes = rs.suffixes := by
  unfold groupStep at h ⊢
  dsimp only at h ⊢
  cases hc : getConfigMap st ns group.1 with
  | none =>
    exact ⟨rfl, rfl⟩
  | some cfg =>
    rw [hc] at h
    rcases reconcileConfigMap_writes_nil cls maxSlots cfg group.2 _ rs h with ⟨h1, h2, -⟩
    exact ⟨h1, h2⟩

lemma reconcileNamespace_writes_nil (cls : String) (maxSlots : Int)
    (ignoreAnns : List String) (ns : String) (st : Store) (suffixes : List String)
    (h : (reconcileNamespace cls maxSlots ignoreAnns ns st suffixes).writes = []) :
    (reconcileNamespace cls maxSlots ignoreAnns ns st suffixes).store = st ∧
      (reconcileNamespace cls maxSlots ignoreAnns ns st suffixes).suffixes
        = suffixes := by
  unfold reconcileNamespace at h ⊢
  rcases foldl_runstate_writes_nil _
    (groupStep_writes_mono cls maxSlots st ns _)
    (groupStep_writes_nil cls maxSlots st ns _) _ _ h with ⟨h1, h2, -⟩
  exact ⟨h1, h2⟩

/-- C3 counterexample: a store with two fresh origins (no consolidated
ingress yet).  The first run errors nowhere and creates the consolidated
object; the second run, on the store the first run produced, still issues
a write — an update, because the packing order of the creation differs
from the pre-claimed attachment order of the second run. -/
theorem C3_idempotence_cex :
    (reconcileNamespace "merge" 45 [] "ns" c3store ["sfx1"]).err = false ∧
    ((reconcileNamespace "merge" 45 [] "ns"
        (reconcileNamespace "merge" 45 [] "ns" c3store ["sfx1"]).store
        ["sfx2"]).writes.isEmpty = false) := by
  decide

/-- C3 as amended: a run that issues no write RPC leaves the apiserver
state and the name-suffix supply untouched, so the next run — the same
pure function of the state — again issues no write: write-free states are
fixed points.  (A run CAN issue writes on the second run after a
converging first run, as the counterexample shows.) -/
theorem C3_idempotence (cls : String) (maxSlots : Int) (ignoreAnns : List String)
    (ns : String) (st : Store) (suffixes : List String)
    (h : (reconcileNamespace cls maxSlots ignoreAnns ns st suffixes).writes = []) :
    (reconcileNamespace cls maxSlots ignoreAnns ns
        (reconcileNamespace cls maxSlots ignoreAnns ns st suffixes).store
        (reconcileNamespace cls maxSlots ignoreAnns ns st suffixes).suffixes).writes
      = [] := by
  rcases reconcileNamespace_writes_nil cls maxSlots ignoreAnns ns st suffixes h with
    ⟨h1, h2⟩
  rw [h1, h2]
  exact h

/-- C3 witness: the third run on the counterexample store issues no
writes, and a fourth run is then also write-free. -/
theorem C3_idempotence_witness :
    (reconcileNamespace "merge" 45 [] "ns"
        (reconcileNamespace "merge" 45 [] "ns"
          (reconcileNamespace "merge" 45 [] "ns" c3store ["sfx1"]).store
          ["sfx2"]).store ["sfx3"]).writes = [] ∧
    (reconcileNamespace "merge" 45 [] "ns"
        (reconcileNamespace "merge" 45 [] "ns"
          (reconcileNamespace "merge" 45 [] "ns"
            (reconcileNamespace "merge" 45 [] "ns" c3store ["sfx1"]).store
            ["sfx2"]).store ["sfx3"]).store
        (reconcileNamespace "merge" 45 [] "ns"
          (reconcileNamespace "merge" 45 [] "ns"
            (reconcileNamespace "merge" 45 [] "ns" c3store ["sfx1"]).store
            ["sfx2"]).store ["sfx3"]).suffixes).writes = [] :=
  ⟨by decide,
   C3_idempotence "merge" 45 [] "ns"
     (reconcileNamespace "merge" 45 [] "ns"
       (reconcileNamespace "merge" 45 [] "ns" c3store ["sfx1"]).store
       ["sfx2"]).store ["sfx3"] (by decide)⟩

end IngressMerge
